import Mathlib

/-!
# Verification of the MSM metadata/snippet graph layer

Shallow embedding of `src/msm_digraph.py` and `src/digraph.py`
(class `MSMDiGraph` over `ValidatedArangoGraph`), together with the
guarded `successors` variant of `src/graph_utils.py`.

Modelling conventions:
* Vertex attribute maps (`dict[str, str]` after `model_dump`) are association
  lists `List (String × String)`; lookup takes the first matching binding,
  assignment (`node[k] = v`) removes old bindings for `k` and appends.
* The graph state is the backing engine's data: a vertex list (key with
  attribute map, insertion order) and an edge list `(src, dst, label)`.
  Collection-qualified ids are already normalized to bare keys
  (`_normalize_node_id` is the identity on bare keys).
* Python exceptions are `Except PyErr`; mutating methods return
  `Except PyErr α × GraphState`, the state component being the graph after
  whatever mutations executed before a raise (exceptions do not roll back).
* Timestamps are opaque strings (serialized ISO datetimes); pydantic's
  datetime parsing is not modelled, every timestamp in scope is a stored
  round-tripped string.  Quotes inside Python error message literals are
  omitted.
-/

deriving instance DecidableEq for Except

/-- Python exception classes raised by the code under verification. -/
inductive PyErr : Type where
  | valueError (msg : String)
  | keyError (msg : String)
  /-- `networkx.NetworkXError`, raised by the backing engine for adjacency
  queries on a missing node. -/
  | networkxError (msg : String)
  /-- `pydantic.ValidationError` escaping `Snippet.model_validate`. -/
  | validationError (msg : String)
  deriving DecidableEq, Repr

/-- `Category(str, Enum)`: metadata category types. -/
inductive Category : Type where
  | concept
  | language
  deriving DecidableEq, Repr

/-- The `.value` of a `Category` member. -/
def Category.value : Category → String
  | .concept => "concept"
  | .language => "language"

/-- Enum lookup by value, as pydantic coercion of a string into `Category`. -/
def Category.ofValue (s : String) : Option Category :=
  if s = "concept" then some .concept
  else if s = "language" then some .language
  else none

/-- `RelationType(str, Enum)`: edge labels. -/
inductive RelationType : Type where
  | metadata_parent
  | has_metadata
  deriving DecidableEq, Repr

/-- The `.value` of a `RelationType` member. -/
def RelationType.value : RelationType → String
  | .metadata_parent => "metadata_parent"
  | .has_metadata => "has_metadata"

/-- `Metadata(BaseModel)` with fields `name` and `category`.  Field
validation (`pattern=^[a-z0-9_]+$`) is the separate predicate
`metadataNameOk`; pydantic enforces it at construction time. -/
structure Metadata : Type where
  name : String
  category : Category
  deriving DecidableEq, Repr

/-- The pydantic pattern `^[a-z0-9_]+$` on `Metadata.name`. -/
def metadataNameOk (s : String) : Bool :=
  s.length > 0 && s.data.all (fun c => c.isLower || c.isDigit || c = '_')

/-- `Snippet(BaseModel)`.  `created_at` is the serialized datetime string. -/
structure Snippet : Type where
  name : String
  content : String
  extension : String
  created_at : String
  deriving DecidableEq, Repr

/-- The pydantic constraints on `Snippet.extension` after the lowercase
coercion: `pattern=^[a-z]+$, max_length=10`. -/
def extensionOk (s : String) : Bool :=
  s.length > 0 && s.data.all Char.isLower && s.length ≤ 10

/-- Attribute map of a vertex (string-valued association list). -/
abbrev Attrs := List (String × String)

/-- Dictionary lookup on an attribute map (`d.get(k)` / `d[k]`). -/
def lookupAttr (a : Attrs) (k : String) : Option String :=
  (a.find? (fun p => p.1 = k)).map (fun p => p.2)

/-- Dictionary assignment `d[k] = v`, modelled as delete-then-append: lookup
behaviour matches the Python dict update. -/
def setAttr (a : Attrs) (k v : String) : Attrs :=
  a.filter (fun p => p.1 ≠ k) ++ [(k, v)]

/-- Split a character list at the first occurrence of `sep`:
`some (before, after)` with `sep` ∉ `before`, or `none` when `sep` is
absent.  Used for Python `split(sep, 1)` and (on reversed lists) for the
last-dot search of `os.path.splitext`. -/
def splitOnFirstChar (sep : Char) : List Char → Option (List Char × List Char)
  | [] => none
  | c :: cs =>
      if c = sep then some ([], cs)
      else (splitOnFirstChar sep cs).map (fun p => (c :: p.1, p.2))

/-- `os.path.splitext` for a plain file name (no path separators): split at
the last dot provided some earlier character of the name is not a dot;
otherwise the extension is empty (leading dots start no extension). -/
def splitext (p : String) : String × String :=
  match splitOnFirstChar '.' p.data.reverse with
  | none => (p, "")
  | some (revExt, revStem) =>
      if revStem.reverse.any (fun c => c ≠ '.') then
        (String.mk revStem.reverse, String.mk ('.' :: revExt.reverse))
      else (p, "")

/-- The `ensure_name_has_correct_extension` model validator:
`name = f"{os.path.splitext(name)[0]}.{extension}"`. -/
def snippetNormalizeName (name extension : String) : String :=
  (splitext name).1 ++ "." ++ extension

/-- Python `str.lower()` on the character-list view of a string (ASCII case
folding via `Char.toLower`, which agrees with Python on the characters in
scope). -/
def strToLower (s : String) : String := String.mk (s.data.map Char.toLower)

/-- `Snippet.model_validate` on an attribute map: requires string fields
`name`, `content`, `extension`; lowercases the extension before checking its
pattern; `created_at` defaults (to `datetime.now()`, opaque here) when
absent; finally the model validator rewrites `name`. -/
def snippet_model_validate (a : Attrs) : Option Snippet :=
  match lookupAttr a "name", lookupAttr a "content", lookupAttr a "extension" with
  | some n, some c, some e =>
      let e2 := strToLower e
      if extensionOk e2 then
        some { name := snippetNormalizeName n e2
               content := c
               extension := e2
               created_at := (lookupAttr a "created_at").getD "" }
      else none
  | _, _, _ => none

/-- `metadata.model_dump()`: `{"name": ..., "category": ...}` (the str-enum
category serializes as its value). -/
def metadata_model_dump (m : Metadata) : Attrs :=
  [("name", m.name), ("category", m.category.value)]

/-- `snippet.model_dump(mode="json")`. -/
def snippet_model_dump_json (sn : Snippet) : Attrs :=
  [("name", sn.name), ("content", sn.content),
   ("extension", sn.extension), ("created_at", sn.created_at)]

/-- `MSMDiGraph._format_metdata` (source spelling kept). -/
def format_metdata (m : Metadata) : String :=
  m.name ++ "-" ++ m.category.value

/-- `MSMDiGraph._parse_metadata`: split on the first `-`; reconstruct a
`Metadata`, whose pydantic validation checks the name pattern and coerces
the category string; any failure raises (here: `none`). -/
def parse_metadata (data_string : String) : Option Metadata :=
  match splitOnFirstChar '-' data_string.data with
  | none => none
  | some (n, c) =>
      match Category.ofValue (String.mk c) with
      | none => none
      | some cat =>
          if metadataNameOk (String.mk n) then some ⟨String.mk n, cat⟩ else none

/-- Backing graph state: vertex list (insertion order, keys with attribute
maps) and edge list `(src, dst, label)`. -/
structure GraphState : Type where
  verts : List (String × Attrs)
  edges : List (String × String × String)
  deriving DecidableEq, Repr

/-- Keys of all vertices, in insertion order (`vertices_list`). -/
def vertexKeys (s : GraphState) : List String := s.verts.map Prod.fst

/-- `memv` / `node_key in self.G`. -/
def memv (s : GraphState) (k : String) : Bool := (vertexKeys s).contains k

/-- `self.G.nodes[k]` as an optional lookup (first binding wins). -/
def lookupAttrs (s : GraphState) (k : String) : Option Attrs :=
  (s.verts.find? (fun v => v.1 = k)).map (fun v => v.2)

/-- `meme` / `self.G.has_edge(a, b)`. -/
def meme (s : GraphState) (a b : String) : Bool :=
  s.edges.any (fun e => e.1 = a && e.2.1 = b)

/-- Successor list of a vertex (adjacency entries, in edge-insertion order):
the value of `self.G.successors(k)` for an existing `k`. -/
def successorsOf (s : GraphState) (k : String) : List String :=
  s.edges.filterMap (fun e => if e.1 = k then some e.2.1 else none)

/-- Predecessor list of a vertex: `self.G.predecessors(k)` for existing `k`. -/
def predecessorsOf (s : GraphState) (k : String) : List String :=
  s.edges.filterMap (fun e => if e.2.1 = k then some e.1 else none)

/-- `ValidatedArangoGraph.getelabel` (digraph.py): the stored label when the
edge exists, `None` otherwise. -/
def getelabel (s : GraphState) (a b : String) : Option String :=
  (s.edges.find? (fun e => e.1 = a && e.2.1 = b)).map (fun e => e.2.2)

/-- `ValidatedArangoGraph.successors` (digraph.py): no existence guard, the
call is forwarded to the backing engine, which raises `NetworkXError` for a
node that is not in the digraph. -/
def digraph_successors (s : GraphState) (k : String) :
    Except PyErr (List String) :=
  if memv s k then .ok (successorsOf s k)
  else .error (.networkxError ("The node " ++ k ++ " is not in the digraph."))

/-- `ValidatedArangoGraph.predecessors` (digraph.py): likewise unguarded. -/
def digraph_predecessors (s : GraphState) (k : String) :
    Except PyErr (List String) :=
  if memv s k then .ok (predecessorsOf s k)
  else .error (.networkxError ("The node " ++ k ++ " is not in the digraph."))

/-- `ValidatedArangoGraph.successors` (graph_utils.py): guarded variant, logs
a warning and returns the empty set for a missing node. -/
def graph_utils_successors (s : GraphState) (k : String) : Finset String :=
  if memv s k then (successorsOf s k).toFinset else ∅

/-- `insertv(node_data, node_key)` (digraph.py): `AlreadyExists` guard, then
`add_node` (appended to the vertex list). -/
def insertv (s : GraphState) (node_data : Attrs) (node_key : String) :
    Except PyErr String × GraphState :=
  if memv s node_key then
    (.error (.keyError ("Vertex with key " ++ node_key ++ " already exists.")), s)
  else
    (.ok node_key, { s with verts := s.verts ++ [(node_key, node_data)] })

/-- `deletev(node_key)` (digraph.py): `NotFound` guard, then `remove_node`,
which also removes every incident edge in both directions. -/
def deletev (s : GraphState) (node_key : String) :
    Except PyErr Unit × GraphState :=
  if memv s node_key then
    (.ok (), { verts := s.verts.filter (fun v => v.1 ≠ node_key)
               edges := s.edges.filter
                 (fun e => e.1 ≠ node_key && e.2.1 ≠ node_key) })
  else (.error (.keyError "Node key is not in G"), s)

/-- `inserte(src, dst, relation_type)` (digraph.py): the relation is always a
member of the enum here, so `_validate_relation_type` yields its value;
endpoint-existence and duplicate-edge guards, then `add_edge`. -/
def inserte (s : GraphState) (source_key target_key : String)
    (relation_type : RelationType) : Except PyErr (String × String) × GraphState :=
  let label := relation_type.value
  if ¬ memv s source_key then
    (.error (.keyError ("Source vertex (" ++ source_key ++ ") not found.")), s)
  else if ¬ memv s target_key then
    (.error (.keyError ("Target vertex (" ++ target_key ++ ") not found.")), s)
  else if meme s source_key target_key then
    (.error (.keyError ("Edge (" ++ source_key ++ " -> " ++ target_key ++
      ") already exists.")), s)
  else
    (.ok (source_key, target_key),
     { s with edges := s.edges ++ [(source_key, target_key, label)] })

/-- Modelled from the spec: `updateVertex(key, data)` "replaces the attribute
map of an existing vertex; fails with `NotFound` if absent" (§4.1).  No
`updatev` method exists under src/ — `update_snippet_content` calls
`self.updatev`, whose definition is missing from the repository sources. -/
def updatev (s : GraphState) (node_key : String) (node_data : Attrs) :
    Except PyErr Unit × GraphState :=
  if memv s node_key then
    let newVerts := s.verts.map
      (fun v => if v.1 = node_key then (node_key, node_data) else v)
    (.ok (), { s with verts := newVerts })
  else (.error (.keyError ("Vertex " ++ node_key ++ " not found.")), s)

/-- `MSMDiGraph._node_data_with_key`: copy of the stored attribute map with
`node[key_field] = node_key`.  Only called on existing vertices; the missing
case yields the empty dict here and is always guarded by `memv`. -/
def node_data_with_key (s : GraphState) (key_field : String) (node_key : String) :
    Attrs :=
  setAttr ((lookupAttrs s node_key).getD []) key_field node_key

/-- `MSMDiGraph.is_metadata`: the vertex exists and its key parses as
`Metadata`. -/
def is_metadata (s : GraphState) (node_key : String) : Bool :=
  memv s node_key && (parse_metadata node_key).isSome

/-- `MSMDiGraph.is_snippet`: the vertex exists and its attributes (with the
key as `name`) validate as a `Snippet`. -/
def is_snippet (s : GraphState) (node_key : String) : Bool :=
  memv s node_key && (snippet_model_validate (node_data_with_key s "name" node_key)).isSome

/-- An approximation of the Python repr of a `Metadata` value, used inside
f-string error messages. -/
def reprMetadata (m : Metadata) : String :=
  "name=" ++ m.name ++ " category=" ++ m.category.value

/-- `MSMDiGraph.insert_metadata`: category agreement, parent existence,
duplicate-child guards, then vertex and `metadata_parent` edge insertion. -/
def insert_metadata (s : GraphState) (metadata parent : Metadata)
    (category : Category) : Except PyErr String × GraphState :=
  if metadata.category ≠ category ∨ parent.category ≠ category then
    (.error (.valueError ("Category mismatch: child:" ++ metadata.category.value ++
      ", parent:" ++ parent.category.value ++ " category to insert:" ++
      category.value)), s)
  else
    let new_metadata_key := format_metdata metadata
    let parent_key := format_metdata parent
    if ¬ is_metadata s parent_key then
      (.error (.valueError "Parent metadata does not exist"), s)
    else if metadata.category ≠ parent.category then
      (.error (.valueError ("Parent category (" ++ parent.category.value ++
        ") and child category (" ++ metadata.category.value ++ ") must match")), s)
    else if memv s new_metadata_key then
      (.error (.valueError "Metadata already exists"), s)
    else
      match insertv s (metadata_model_dump metadata) new_metadata_key with
      | (.ok _, s1) =>
          match inserte s1 parent_key new_metadata_key .metadata_parent with
          | (.ok _, s2) => (.ok new_metadata_key, s2)
          | (.error e, s2) => (.error e, s2)
      | (.error e, s1) => (.error e, s1)

/-- `MSMDiGraph._metadata_present_same_cat`: recursive check that every list
entry exists as metadata and matches the requested category (read-only). -/
def metadata_present_same_cat (s : GraphState) :
    List Metadata → Category → Except PyErr Unit
  | [], _ => .ok ()
  | m :: l, category =>
      if ¬ is_metadata s (format_metdata m) then
        .error (.valueError ("Metadata " ++ reprMetadata m ++ " is not in db"))
      else if m.category ≠ category then
        .error (.valueError ("Metadata category: " ++ reprMetadata m ++
          " does not match requested category:" ++ category.value))
      else metadata_present_same_cat s l category

/-- `MSMDiGraph._insert_metadata_list_for_snippet`: snippet-existence
precondition, full metadata-list precondition, then one `has_metadata` edge
per entry, revalidating the tail at each recursive step. -/
def insert_metadata_list_for_snippet (s : GraphState) (snippet_key : String)
    (metadata_list : List Metadata) (category : Category) :
    Except PyErr Unit × GraphState :=
  if ¬ is_snippet s snippet_key then
    (.error (.valueError ("Snippet " ++ snippet_key ++ " is not in db")), s)
  else
    match metadata_present_same_cat s metadata_list category with
    | .error e => (.error e, s)
    | .ok _ =>
        match metadata_list with
        | [] => (.ok (), s)
        | m :: l =>
            match inserte s snippet_key (format_metdata m) .has_metadata with
            | (.ok _, s1) => insert_metadata_list_for_snippet s1 snippet_key l category
            | (.error e, s1) => (.error e, s1)

/-- `MSMDiGraph.insert_snippet`: duplicate-key and empty-list guards, then
the snippet vertex is inserted, then the metadata links. -/
def insert_snippet (s : GraphState) (snippet : Snippet)
    (metadata_list : List Metadata) (category : Category) :
    Except PyErr Unit × GraphState :=
  if memv s snippet.name then
    (.error (.valueError ("Snippet " ++ snippet.name ++ " already exists")), s)
  else if metadata_list.length < 1 then
    (.error (.valueError "There should be at least one metadata name"), s)
  else
    match insertv s (snippet_model_dump_json snippet) snippet.name with
    | (.ok _, s1) => insert_metadata_list_for_snippet s1 snippet.name metadata_list category
    | (.error e, s1) => (.error e, s1)

/-- `MSMDiGraph._get_all_metadata_from_snippet`: parse each successor key as
`Metadata`. -/
def get_all_metadata_from_snippet (s : GraphState) (snippet_name : String) :
    Except PyErr (List Metadata) :=
  match digraph_successors s snippet_name with
  | .error e => .error e
  | .ok keys => keys.mapM (fun key =>
      match parse_metadata key with
      | some m => Except.ok m
      | none => .error (.valueError ("String not valid: " ++ key ++
          ". Requested format: name-category")))

/-- `MSMDiGraph.get_snippet`: existence guard, then the stored attribute map
is materialized as a `Snippet` (a pydantic `ValidationError` would escape
uncaught) together with the decoded metadata of every successor. -/
def get_snippet (s : GraphState) (snippet_name : String) :
    Except PyErr (Snippet × List Metadata) :=
  if ¬ is_snippet s snippet_name then
    .error (.valueError ("Snippet " ++ snippet_name ++ " does not exist"))
  else
    match snippet_model_validate ((lookupAttrs s snippet_name).getD []) with
    | none => .error (.validationError snippet_name)
    | some snippet_obj =>
        match get_all_metadata_from_snippet s snippet_name with
        | .error e => .error e
        | .ok metadata_list => .ok (snippet_obj, metadata_list)

/-- `MSMDiGraph.update_snippet_content`: fetch, replace `content`, dump, and
write back through `updatev` (the latter modelled from the spec, see
`updatev`). -/
def update_snippet_content (s : GraphState) (snippet_name content : String) :
    Except PyErr Unit × GraphState :=
  match get_snippet s snippet_name with
  | .error e => (.error e, s)
  | .ok (snippet, _) =>
      let updated := { snippet with content := content }
      updatev s snippet_name (snippet_model_dump_json updated)

/-- `MSMDiGraph._filter_snippets_from_vertices`. -/
def filter_snippets_from_vertices (s : GraphState) : List String → List String
  | [] => []
  | x :: r =>
      let tail := filter_snippets_from_vertices s r
      if is_snippet s x then x :: tail else tail

/-- A Python `set` of strings, modelled as its deduplicated member list
(iteration order of a Python set is unspecified; the claims below depend
only on membership). -/
def pySet (l : List String) : List String := l.dedup

/-- Python `set.union`, on the deduplicated-list model. -/
def pyUnion (a b : List String) : List String := (a ++ b).dedup

/-- Python `set.intersection`, on the deduplicated-list model. -/
def pyInter (a b : List String) : List String := a.filter (fun x => x ∈ b)

/-- `MSMDiGraph._get_snippets_from_metadata`: predecessors filtered to
snippets, as a set; the bare `except` catches the engine error raised for a
missing metadata vertex and yields the empty set. -/
def get_snippets_from_metadata_set (s : GraphState) (m : Metadata) :
    List String :=
  match digraph_predecessors s (format_metdata m) with
  | .ok pred => pySet (filter_snippets_from_vertices s pred)
  | .error _ => []

/-- `MSMDiGraph._get_snippets_with_metadata_from_list`. -/
def get_snippets_with_metadata_from_list (s : GraphState) :
    List String → Except PyErr (List (Snippet × List Metadata))
  | [] => .ok []
  | k :: r =>
      match get_snippet s k with
      | .error e => .error e
      | .ok x =>
          match get_snippets_with_metadata_from_list s r with
          | .error e => .error e
          | .ok xs => .ok (x :: xs)

/-- `MSMDiGraph._get_snippets_union_set`. -/
def get_snippets_union_set (s : GraphState) : List Metadata → List String
  | [] => []
  | m :: r => pyUnion (get_snippets_from_metadata_set s m) (get_snippets_union_set s r)

/-- `MSMDiGraph.get_snippets_union` (`list(...)` over the set model). -/
def get_snippets_union (s : GraphState) (metadata_list : List Metadata) :
    Except PyErr (List (Snippet × List Metadata)) :=
  get_snippets_with_metadata_from_list s (get_snippets_union_set s metadata_list)

/-- `MSMDiGraph._get_snippets_intersection_set`. -/
def get_snippets_intersection_set (s : GraphState) : List Metadata → List String
  | [] => []
  | [m] => get_snippets_from_metadata_set s m
  | m :: r => pyInter (get_snippets_from_metadata_set s m)
      (get_snippets_intersection_set s r)

/-- `MSMDiGraph.get_snippets_intersection`. -/
def get_snippets_intersection (s : GraphState) (metadata_list : List Metadata) :
    Except PyErr (List (Snippet × List Metadata)) :=
  get_snippets_with_metadata_from_list s
    (get_snippets_intersection_set s metadata_list)

/-- `MSMDiGraph.delete_snippet`. -/
def delete_snippet (s : GraphState) (snippet_name : String) :
    Except PyErr Unit × GraphState :=
  if ¬ is_snippet s snippet_name then
    (.error (.valueError ("Snippet " ++ snippet_name ++ " not found")), s)
  else deletev s snippet_name

/-- `MSMDiGraph._snippet_metadata_outdegree`: `len(self.successors(s_key))`
behind an `is_snippet` guard. -/
def snippet_metadata_outdegree (s : GraphState) (s_key : String) :
    Except PyErr Nat :=
  if ¬ is_snippet s s_key then
    .error (.valueError ("Snippet " ++ s_key ++ " not found"))
  else .ok (successorsOf s s_key).length

/-- `MSMDiGraph._only_metadata_of_snippet`: under the entity guards, the
snippet's total outgoing edge count is 1 and the edge to `m_key` exists;
outside the guards Python returns `None`, which is falsy.  Under the
`is_snippet` guard `_snippet_metadata_outdegree` cannot raise, so its value
is the successor-list length. -/
def only_metadata_of_snippet (s : GraphState) (m_key s_key : String) : Bool :=
  if is_metadata s m_key && is_snippet s s_key then
    decide ((successorsOf s s_key).length = 1) && meme s s_key m_key
  else false

/-- `MSMDiGraph._delete_snippets_with_only_m`: delete each listed snippet
whose only metadata link is `m_key`, threading the mutated state. -/
def delete_snippets_with_only_m (s : GraphState) (m_key : String)
    (s_keys : List String) : Except PyErr Unit × GraphState :=
  match s_keys with
  | [] => (.ok (), s)
  | s_key :: r =>
      if only_metadata_of_snippet s m_key s_key then
        match delete_snippet s s_key with
        | (.ok _, s1) => delete_snippets_with_only_m s1 m_key r
        | (.error e, s1) => (.error e, s1)
      else delete_snippets_with_only_m s m_key r

/-- `MSMDiGraph.delete_metadata`: existence guard, conditional cascade over
the linked snippets, then deletion of the metadata vertex itself.  The
`list(snippets)` over a Python set is the deduplicated `Finset` listing (set
iteration order is unspecified). -/
def delete_metadata (s : GraphState) (m : Metadata) :
    Except PyErr Unit × GraphState :=
  let m_key := format_metdata m
  if ¬ is_metadata s m_key then
    (.error (.valueError ("Metadata " ++ m_key ++ " does not exist")), s)
  else
    let snippets := get_snippets_from_metadata_set s m
    match delete_snippets_with_only_m s m_key snippets with
    | (.ok _, s1) => deletev s1 m_key
    | (.error e, s1) => (.error e, s1)

/-- `MSMDiGraph._filter_metadata_from_list`. -/
def filter_metadata_from_list (s : GraphState) : List String → List String
  | [] => []
  | x :: r =>
      if is_metadata s x then x :: filter_metadata_from_list s r
      else filter_metadata_from_list s r

/-- Membership in `filter_metadata_from_list`. -/
theorem mem_filter_metadata_from_list {s : GraphState} {l : List String}
    {x : String} : x ∈ filter_metadata_from_list s l ↔
      x ∈ l ∧ is_metadata s x = true := by
  induction l with
  | nil => simp [filter_metadata_from_list]
  | cons a r ih =>
      by_cases h : is_metadata s a
      · simp only [filter_metadata_from_list, if_pos h, List.mem_cons, ih]
        constructor
        · rintro (rfl | ⟨hr, hm⟩)
          · exact ⟨Or.inl rfl, h⟩
          · exact ⟨Or.inr hr, hm⟩
        · rintro ⟨rfl | hr, hm⟩
          · exact Or.inl rfl
          · exact Or.inr ⟨hr, hm⟩
      · simp only [filter_metadata_from_list, if_neg h, ih, List.mem_cons]
        constructor
        · rintro ⟨hr, hm⟩; exact ⟨Or.inr hr, hm⟩
        · rintro ⟨rfl | hr, hm⟩
          · exact absurd hm h
          · exact ⟨hr, hm⟩

/-- `is_metadata` implies vertex membership. -/
theorem is_metadata_memv {s : GraphState} {k : String}
    (h : is_metadata s k = true) : memv s k = true := by
  simp only [is_metadata, Bool.and_eq_true] at h
  exact h.1

/-- `MSMDiGraph._collect_reachable_metadata`: worklist computation of the
forward-reachable metadata closure.  Termination: each newly enqueued vertex
is simultaneously added to `visited` and is an existing vertex (the metadata
filter checks `memv`), so the measure (unvisited vertices, worklist length)
decreases lexicographically — each vertex is enqueued at most once. -/
def collect_reachable_metadata (s : GraphState) :
    List String → Finset String → Except PyErr (Finset String)
  | [], visited => .ok visited
  | current :: rest, visited =>
      if memv s current then
        let succ_list := successorsOf s current
        let metadata_succ := filter_metadata_from_list s succ_list
        let visited_new := visited ∪ metadata_succ.toFinset
        let worklist_new := rest ++ metadata_succ.filter (fun m => ¬ m ∈ visited)
        collect_reachable_metadata s worklist_new visited_new
      else
        .error (.networkxError ("The node " ++ current ++ " is not in the digraph."))
termination_by worklist visited => (((vertexKeys s).toFinset \ visited).card, worklist.length)
decreasing_by
  by_cases hnew : ∀ m ∈ filter_metadata_from_list s (successorsOf s current),
      m ∈ visited
  · have hv : visited ∪ (filter_metadata_from_list s (successorsOf s current)).toFinset
        = visited := by
      apply Finset.union_eq_left.mpr
      intro x hx
      exact hnew x (List.mem_toFinset.mp hx)
    have hf : (filter_metadata_from_list s (successorsOf s current)).filter
        (fun m => ¬ m ∈ visited) = [] := by
      apply List.filter_eq_nil_iff.mpr
      intro a ha
      simpa using hnew a ha
    rw [hv, hf]
    apply Prod.Lex.right
    simp
  · push_neg at hnew
    obtain ⟨m, hm, hmv⟩ := hnew
    apply Prod.Lex.left
    apply Finset.card_lt_card
    constructor
    · intro x hx
      rcases Finset.mem_sdiff.mp hx with ⟨hx1, hx2⟩
      exact Finset.mem_sdiff.mpr ⟨hx1, fun hxv => hx2 (Finset.mem_union_left _ hxv)⟩
    · intro hsub
      have hmV : m ∈ (vertexKeys s).toFinset := by
        have := (mem_filter_metadata_from_list.mp hm).2
        exact List.mem_toFinset.mpr
          (by simpa [memv, vertexKeys] using is_metadata_memv this)
      have hmem : m ∈ (vertexKeys s).toFinset \ visited :=
        Finset.mem_sdiff.mpr ⟨hmV, hmv⟩
      have := hsub hmem
      rcases Finset.mem_sdiff.mp this with ⟨_, hcontra⟩
      exact hcontra (Finset.mem_union_right _ (List.mem_toFinset.mpr hm))

/-- Node list of the returned subgraph: each reachable key with its stored
attribute map (`self.get_node` raises `KeyError` for a missing vertex). -/
def build_tree_nodes (s : GraphState) (ks : List String) :
    Except PyErr (List (String × Attrs)) :=
  ks.mapM (fun key =>
    match lookupAttrs s key with
    | some a => Except.ok (key, a)
    | none => Except.error (PyErr.keyError key))

/-- Inner loop of the tree construction: the edges of `src` into the
reachable set, each annotated with its stored label. -/
def tree_edges_from (s : GraphState) (reachable : Finset String)
    (src : String) : List (String × String × Option String) :=
  (successorsOf s src).filterMap
    (fun dst => if dst ∈ reachable then some (src, dst, getelabel s src dst)
                else none)

/-- Edge list of the returned subgraph (`self.successors` raises for a
missing source). -/
def build_tree_edges (s : GraphState) (reachable : Finset String)
    (ks : List String) : Except PyErr (List (String × String × Option String)) :=
  (ks.mapM (fun src =>
    if memv s src then Except.ok (tree_edges_from s reachable src)
    else Except.error (PyErr.networkxError
      ("The node " ++ src ++ " is not in the digraph.")))).map List.flatten

/-- The `nx.DiGraph` value returned by `get_metadata_tree`: a fresh,
disconnected node/edge listing. -/
structure TreeGraph : Type where
  nodes : List (String × Attrs)
  edges : List (String × String × Option String)
  deriving DecidableEq, Repr

/-- `MSMDiGraph.get_metadata_tree`: entity guard, reachability closure from
the root, then the induced subgraph (reachable vertices with their stored
attributes; every stored edge between reachable vertices with its label).
Python iterates the `reachable` set in unspecified order; the `Finset`
listing stands in for it. -/
def get_metadata_tree (s : GraphState) (metadata_key : String) :
    Except PyErr TreeGraph :=
  if ¬ is_metadata s metadata_key then
    .error (.valueError ("Node " ++ metadata_key ++ " is not metadata"))
  else
    match collect_reachable_metadata s [metadata_key] {metadata_key} with
    | .error e => .error e
    | .ok reachable =>
        match build_tree_nodes s (reachable.sort (fun a b => a ≤ b)) with
        | .error e => .error e
        | .ok nodes =>
            match build_tree_edges s reachable (reachable.sort (fun a b => a ≤ b)) with
            | .error e => .error e
            | .ok edges => .ok { nodes := nodes, edges := edges }

/-- `splitOnFirstChar` recovers the parts around the first separator. -/
theorem splitOnFirstChar_append {sep : Char} {l₁ l₂ : List Char}
    (h : sep ∉ l₁) : splitOnFirstChar sep (l₁ ++ sep :: l₂) = some (l₁, l₂) := by
  induction l₁ with
  | nil => simp [splitOnFirstChar]
  | cons c cs ih =>
      have hc : ¬ c = sep := fun hq => h (hq ▸ List.mem_cons_self _ _)
      have ih2 := ih (fun hm => h (List.mem_cons_of_mem _ hm))
      simp [splitOnFirstChar, hc, ih2]

/-- Soundness of `splitOnFirstChar`. -/
theorem splitOnFirstChar_eq_some {sep : Char} {l a b : List Char}
    (h : splitOnFirstChar sep l = some (a, b)) :
    l = a ++ sep :: b ∧ sep ∉ a := by
  induction l generalizing a b with
  | nil => simp [splitOnFirstChar] at h
  | cons c cs ih =>
      by_cases hc : c = sep
      · subst hc
        simp only [splitOnFirstChar, if_pos rfl, Option.some.injEq, Prod.mk.injEq] at h
        obtain ⟨rfl, rfl⟩ := h
        simp
      · simp only [splitOnFirstChar, if_neg hc] at h
        cases ha : splitOnFirstChar sep cs with
        | none => rw [ha] at h; simp at h
        | some p =>
            obtain ⟨p1, p2⟩ := p
            rw [ha] at h
            simp at h
            obtain ⟨h1, h2⟩ := h
            subst h1
            subst h2
            obtain ⟨hl, hs⟩ := ih (a := p1) (b := p2) (by rw [ha])
            refine ⟨by rw [hl, List.cons_append], ?_⟩
            intro hmem
            rcases List.mem_cons.mp hmem with h1 | h1
            · exact hc h1.symm
            · exact hs h1

/-- Characters of a valid metadata name satisfy the pattern alternatives. -/
theorem metadataNameOk_chars {n : String} (h : metadataNameOk n = true)
    {c : Char} (hc : c ∈ n.data) :
    (c.isLower || c.isDigit || c = '_') = true := by
  simp only [metadataNameOk, Bool.and_eq_true, List.all_eq_true] at h
  exact h.2 c hc

/-- A valid metadata name contains no dash (so the encoded key splits back at
the appended separator). -/
theorem metadataNameOk_no_dash {n : String} (h : metadataNameOk n = true) :
    '-' ∉ n.data := by
  intro hm
  have := metadataNameOk_chars h hm
  exact absurd this (by decide)

/-- A valid metadata name contains no dot. -/
theorem metadataNameOk_no_dot {n : String} (h : metadataNameOk n = true) :
    '.' ∉ n.data := by
  intro hm
  have := metadataNameOk_chars h hm
  exact absurd this (by decide)

/-- C7: for every valid `Metadata` value (name matching `^[a-z0-9_]+$`,
category in the closed enum), decoding the encoded key yields the value
back: `_parse_metadata(_format_metdata(m)) == m`, the decoder splitting on
the first separator only. -/
theorem C7_parse_format_metdata_roundtrip (m : Metadata)
    (h : metadataNameOk m.name = true) :
    parse_metadata (format_metdata m) = some m := by
  obtain ⟨name, cat⟩ := m
  have hdata : (format_metdata ⟨name, cat⟩).data
      = name.data ++ '-' :: cat.value.data := by
    cases cat <;> simp [format_metdata, Category.value]
  unfold parse_metadata
  rw [hdata, splitOnFirstChar_append (metadataNameOk_no_dash h)]
  have hcat : Category.ofValue (String.mk cat.value.data) = some cat := by
    cases cat <;> rfl
  dsimp only
  rw [hcat]
  have h2 : metadataNameOk (String.mk name.data) = true := h
  simp [h2]

/-- C7 witness: the round trip at a concrete valid metadata value. -/
theorem C7_witness :
    metadataNameOk (Metadata.mk "algo_1" Category.concept).name = true ∧
    parse_metadata (format_metdata ⟨"algo_1", Category.concept⟩)
      = some ⟨"algo_1", Category.concept⟩ :=
  ⟨by decide, C7_parse_format_metdata_roundtrip ⟨"algo_1", Category.concept⟩ (by decide)⟩

/-- C9: for the empty metadata list, both union and intersection queries
return the empty result (empty key set, empty materialized list), with no
error. -/
theorem C9_union_intersection_empty_list (s : GraphState) :
    get_snippets_union_set s [] = [] ∧
    get_snippets_intersection_set s [] = [] ∧
    get_snippets_union s [] = .ok [] ∧
    get_snippets_intersection s [] = .ok [] :=
  ⟨rfl, rfl, rfl, rfl⟩

/-- C3 (counterexample): the Graph Store `successors` actually used by
`MSMDiGraph` (digraph.py) forwards an unknown key to the backing engine
unguarded, which fails with `NetworkXError` instead of returning the empty
set — here on the empty graph. -/
theorem C3_counterexample_digraph_successors_fails :
    digraph_successors ⟨[], []⟩ "k"
      = .error (.networkxError "The node k is not in the digraph.") := by
  rfl

/-- C3 (amended): the guarded Graph Store `successors` of graph_utils.py
returns the empty set for a key that is not a vertex; the digraph.py variant
used by `MSMDiGraph` instead propagates the engine failure (see the
counterexample). -/
theorem C3_graph_utils_successors_unknown_empty (s : GraphState) (k : String)
    (h : memv s k = false) : graph_utils_successors s k = ∅ := by
  simp [graph_utils_successors, h]

/-- C3 witness: the amended theorem at a concrete state and key. -/
theorem C3_witness :
    memv ⟨[("a", [])], []⟩ "k" = false ∧
    graph_utils_successors ⟨[("a", [])], []⟩ "k" = ∅ :=
  ⟨by decide, C3_graph_utils_successors_unknown_empty ⟨[("a", [])], []⟩ "k" (by decide)⟩

/-- C8: when child, parent and requested category agree but the parent's
encoded key is not a stored metadata vertex, `insert_metadata` fails with
the parent-not-found error and returns the graph unchanged — in particular
no vertex for the child key is created. -/
theorem C8_insert_metadata_parent_absent (s : GraphState)
    (child parent : Metadata) (category : Category)
    (h1 : child.category = category) (h2 : parent.category = category)
    (h3 : is_metadata s (format_metdata parent) = false) :
    insert_metadata s child parent category
      = (.error (.valueError "Parent metadata does not exist"), s) := by
  unfold insert_metadata
  rw [if_neg (by simp [h1, h2])]
  rw [if_pos (by simp [h3])]

/-- C8 witness: concrete same-category child/parent over the empty graph. -/
theorem C8_witness :
    (Metadata.mk "sorting" .concept).category = Category.concept ∧
    (Metadata.mk "algorithm" .concept).category = Category.concept ∧
    is_metadata ⟨[], []⟩ (format_metdata ⟨"algorithm", .concept⟩) = false ∧
    insert_metadata ⟨[], []⟩ ⟨"sorting", .concept⟩ ⟨"algorithm", .concept⟩ .concept
      = (.error (.valueError "Parent metadata does not exist"), ⟨[], []⟩) :=
  ⟨rfl, rfl, by decide,
    C8_insert_metadata_parent_absent ⟨[], []⟩ ⟨"sorting", .concept⟩
      ⟨"algorithm", .concept⟩ .concept rfl rfl (by decide)⟩

/-- C10 (counterexample): a vertex whose key parses as `Metadata` but whose
stored attributes carry `content` and a valid `extension` classifies as both
metadata and snippet: `Snippet` validation does not constrain the key
shape.  The claimed mutual exclusion fails on this state. -/
theorem C10_counterexample_both_classifications :
    is_metadata ⟨[("foo-concept",
        [("name", "foo-concept"), ("content", "x"), ("extension", "py"),
         ("created_at", "2024-01-01T00:00:00")])], []⟩ "foo-concept" = true ∧
    is_snippet ⟨[("foo-concept",
        [("name", "foo-concept"), ("content", "x"), ("extension", "py"),
         ("created_at", "2024-01-01T00:00:00")])], []⟩ "foo-concept" = true := by
  constructor <;> rfl

/-- `memv` as list membership of the key. -/
theorem memv_iff_mem {s : GraphState} {k : String} :
    memv s k = true ↔ k ∈ vertexKeys s := by
  simp [memv, List.contains_iff_exists_mem_beq, beq_iff_eq]

/-- `is_snippet` implies vertex membership. -/
theorem is_snippet_memv {s : GraphState} {k : String}
    (h : is_snippet s k = true) : memv s k = true := by
  simp only [is_snippet, Bool.and_eq_true] at h
  exact h.1

/-- Category values determined by enum lookup. -/
theorem Category.ofValue_eq_some {s : String} {cat : Category}
    (h : Category.ofValue s = some cat) : s = cat.value := by
  unfold Category.ofValue at h
  split_ifs at h with h1 h2
  · cases h; exact h1
  · cases h; exact h2

/-- A key that decodes as `Metadata` contains no dot: the name part matches
`^[a-z0-9_]+$` and the category part is a member of the closed enum. -/
theorem parse_metadata_no_dot {k : String} {m : Metadata}
    (h : parse_metadata k = some m) : '.' ∉ k.data := by
  unfold parse_metadata at h
  cases hsp : splitOnFirstChar '-' k.data with
  | none => rw [hsp] at h; simp at h
  | some p =>
      obtain ⟨n, c⟩ := p
      rw [hsp] at h
      dsimp only at h
      obtain ⟨hl, -⟩ := splitOnFirstChar_eq_some hsp
      cases hcat : Category.ofValue (String.mk c) with
      | none => rw [hcat] at h; simp at h
      | some cat =>
          rw [hcat] at h
          dsimp only at h
          by_cases hok : metadataNameOk (String.mk n) = true
          · intro hdot
            rw [hl] at hdot
            rcases List.mem_append.mp hdot with h1 | h1
            · exact metadataNameOk_no_dot hok h1
            · rcases List.mem_cons.mp h1 with h2 | h2
              · exact absurd h2 (by decide)
              · have hc : String.mk c = cat.value := Category.ofValue_eq_some hcat
                have hc2 : c = cat.value.data := congrArg String.data hc
                rw [hc2] at h2
                cases cat <;> exact absurd h2 (by decide)
          · rw [if_neg hok] at h
            simp at h

/-- C10 (amended): the two entity classifications are mutually exclusive on
every state in which each vertex classified as a snippet has a dot in its
key (as holds for all vertices created by the domain workflows: snippet keys
end in `.<extension>`), because a key that decodes as `Metadata` is
dot-free.  Without that restriction the claim fails (see the
counterexample): `Snippet` validation does not constrain the key shape. -/
theorem C10_classifications_exclusive (s : GraphState)
    (hdot : ∀ k ∈ vertexKeys s, is_snippet s k = true → '.' ∈ k.data) :
    ∀ k, ¬ (is_metadata s k = true ∧ is_snippet s k = true) := by
  rintro k ⟨hm, hs⟩
  have hk : k ∈ vertexKeys s := memv_iff_mem.mp (is_snippet_memv hs)
  have hdot2 := hdot k hk hs
  simp only [is_metadata, Bool.and_eq_true, Option.isSome_iff_exists] at hm
  obtain ⟨-, m, hm2⟩ := hm
  exact parse_metadata_no_dot hm2 hdot2

/-- C10 witness: the amended exclusivity at a concrete single-vertex state
holding one metadata vertex. -/
theorem C10_witness :
    (∀ k ∈ vertexKeys ⟨[("a-concept", [("name", "a"), ("category", "concept")])], []⟩,
      is_snippet ⟨[("a-concept", [("name", "a"), ("category", "concept")])], []⟩ k = true →
      '.' ∈ k.data) ∧
    ¬ (is_metadata ⟨[("a-concept", [("name", "a"), ("category", "concept")])], []⟩
        "a-concept" = true ∧
       is_snippet ⟨[("a-concept", [("name", "a"), ("category", "concept")])], []⟩
        "a-concept" = true) :=
  ⟨by decide,
   C10_classifications_exclusive
     ⟨[("a-concept", [("name", "a"), ("category", "concept")])], []⟩
     (by decide) "a-concept"⟩

/-- Vertex membership after appending a fresh vertex entry. -/
theorem memv_append_iff {s : GraphState} {k0 : String} {d : Attrs} {k : String} :
    memv { s with verts := s.verts ++ [(k0, d)] } k = true ↔
      (memv s k = true ∨ k = k0) := by
  simp only [memv_iff_mem, vertexKeys, List.map_append, List.map_cons, List.map_nil,
    List.mem_append, List.mem_singleton]

/-- Appending a vertex with a different key does not change membership. -/
theorem memv_append_ne {s : GraphState} {k0 : String} {d : Attrs} {k : String}
    (hne : k ≠ k0) :
    memv { s with verts := s.verts ++ [(k0, d)] } k = memv s k := by
  cases h : memv s k
  · cases h2 : memv { s with verts := s.verts ++ [(k0, d)] } k
    · rfl
    · rcases memv_append_iff.mp h2 with hh | hh
      · rw [h] at hh; cases hh
      · exact absurd hh hne
  · exact memv_append_iff.mpr (Or.inl h)

/-- Appending a vertex with a different key preserves `is_metadata`. -/
theorem is_metadata_append_ne {s : GraphState} {k0 : String} {d : Attrs}
    {key : String} (hne : key ≠ k0) :
    is_metadata { s with verts := s.verts ++ [(k0, d)] } key
      = is_metadata s key := by
  simp only [is_metadata, memv_append_ne hne]

/-- `find?` skips a list in which nothing matches. -/
theorem find?_append_of_none {α} {p : α → Bool} {l1 l2 : List α}
    (h : l1.find? p = none) : (l1 ++ l2).find? p = l2.find? p := by
  induction l1 with
  | nil => simp
  | cons a r ih =>
      have hpa : p a = false := by
        cases hpa : p a
        · rfl
        · rw [List.find?_cons_of_pos _ hpa] at h; cases h
      rw [List.find?_cons_of_neg _ (by simp [hpa])] at h
      rw [List.cons_append, List.find?_cons_of_neg _ (by simp [hpa])]
      exact ih h

/-- No binding exists for an absent key. -/
theorem find?_verts_eq_none {s : GraphState} {k : String}
    (h : memv s k = false) :
    s.verts.find? (fun v => v.1 = k) = none := by
  apply List.find?_eq_none.mpr
  intro v hv hpv
  have : v.1 = k := by simpa using hpv
  have hk : k ∈ vertexKeys s := this ▸ List.mem_map_of_mem Prod.fst hv
  rw [memv_iff_mem.mpr hk] at h
  cases h

/-- The attribute map of a freshly appended vertex. -/
theorem lookupAttrs_append_fresh {s : GraphState} {k0 : String} {d : Attrs}
    (h : memv s k0 = false) :
    lookupAttrs { s with verts := s.verts ++ [(k0, d)] } k0 = some d := by
  simp only [lookupAttrs]
  rw [find?_append_of_none (find?_verts_eq_none h)]
  simp

/-- A vertex freshly inserted with a snippet's json dump classifies as a
snippet (provided the extension satisfies its pattern). -/
theorem is_snippet_fresh_insert {s : GraphState} {sn : Snippet}
    (h1 : memv s sn.name = false)
    (hext : extensionOk (strToLower sn.extension) = true) :
    is_snippet { s with verts := s.verts ++ [(sn.name, snippet_model_dump_json sn)] }
      sn.name = true := by
  have hmem : memv { s with verts := s.verts ++ [(sn.name, snippet_model_dump_json sn)] }
      sn.name = true := memv_append_iff.mpr (Or.inr rfl)
  have hlook := lookupAttrs_append_fresh (d := snippet_model_dump_json sn) h1
  simp only [is_snippet, node_data_with_key, hlook, Option.getD_some, hmem,
    Bool.true_and]
  simp +decide only [setAttr, snippet_model_dump_json, List.filter]
  simp only [snippet_model_validate, lookupAttr]
  simp +decide only [List.find?]
  simp [hext]

/-- A metadata list containing an entry that is absent as metadata or has
the wrong category makes `_metadata_present_same_cat` fail. -/
theorem metadata_present_same_cat_error {s : GraphState} {l : List Metadata}
    {category : Category}
    (h : ∃ m ∈ l, is_metadata s (format_metdata m) = false ∨
      m.category ≠ category) :
    ∃ e, metadata_present_same_cat s l category = .error e := by
  induction l with
  | nil => simp at h
  | cons m r ih =>
      by_cases h1 : is_metadata s (format_metdata m) = true
      · by_cases h2 : m.category = category
        · obtain ⟨b, hb, hbad⟩ := h
          rcases List.mem_cons.mp hb with rfl | hbr
          · rcases hbad with hb1 | hb2
            · rw [h1] at hb1; cases hb1
            · exact absurd h2 hb2
          · obtain ⟨e, he⟩ := ih ⟨b, hbr, hbad⟩
            exact ⟨e, by simp [metadata_present_same_cat, h1, h2, he]⟩
        · exact ⟨.valueError ("Metadata category: " ++ reprMetadata m ++
            " does not match requested category:" ++ category.value),
            by simp [metadata_present_same_cat, h1, h2]⟩
      · exact ⟨.valueError ("Metadata " ++ reprMetadata m ++ " is not in db"),
          by simp [metadata_present_same_cat, h1]⟩

/-- With the snippet present, a failing metadata-list precondition surfaces
the error with no state change. -/
theorem insert_metadata_list_error {s1 : GraphState} {key : String}
    {l : List Metadata} {cat : Category} {e : PyErr}
    (hs : is_snippet s1 key = true)
    (he : metadata_present_same_cat s1 l cat = .error e) :
    insert_metadata_list_for_snippet s1 key l cat = (.error e, s1) := by
  cases l with
  | nil => simp [metadata_present_same_cat] at he
  | cons m r =>
      rw [insert_metadata_list_for_snippet.eq_2, if_neg (not_not_intro hs), he]

/-- C1 (counterexample): `insert_snippet` with a fresh snippet and a
metadata list whose sole entry is absent fails, yet the snippet vertex has
already been inserted: the graph is not left unchanged and a vertex with key
`s.name` exists afterward. -/
theorem C1_counterexample_partial_application :
    (insert_snippet ⟨[], []⟩ ⟨"a.py", "c", "py", "t"⟩
        [⟨"x", Category.concept⟩] Category.concept).1
      = .error (.valueError "Metadata name=x category=concept is not in db") ∧
    memv (insert_snippet ⟨[], []⟩ ⟨"a.py", "c", "py", "t"⟩
        [⟨"x", Category.concept⟩] Category.concept).2 "a.py" = true := by
  constructor <;> decide

/-- C1 (amended): when the snippet key is fresh and the non-empty metadata
list contains an entry that is absent as metadata or mismatches the
category, `insert_snippet` fails and inserts no edge — but the snippet
vertex itself has already been inserted and remains: the metadata-list
preconditions are only checked after the vertex insertion, so the operation
is partially applied, not rolled back. -/
theorem C1_insert_snippet_bad_metadata_partial (s : GraphState) (sn : Snippet)
    (metadata_list : List Metadata) (category : Category)
    (hext : extensionOk (strToLower sn.extension) = true)
    (h1 : memv s sn.name = false)
    (h2 : metadata_list ≠ [])
    (h3 : ∃ m ∈ metadata_list, format_metdata m ≠ sn.name ∧
      (is_metadata s (format_metdata m) = false ∨ m.category ≠ category)) :
    ∃ e, insert_snippet s sn metadata_list category
      = (.error e,
         { s with verts := s.verts ++ [(sn.name, snippet_model_dump_json sn)] }) := by
  have hbad : ∃ m ∈ metadata_list,
      is_metadata { s with verts := s.verts ++ [(sn.name, snippet_model_dump_json sn)] }
        (format_metdata m) = false ∨ m.category ≠ category := by
    obtain ⟨m, hm, hne, hcase⟩ := h3
    refine ⟨m, hm, ?_⟩
    rcases hcase with hc | hc
    · exact Or.inl ((is_metadata_append_ne hne).trans hc)
    · exact Or.inr hc
  obtain ⟨e, he⟩ := metadata_present_same_cat_error hbad
  have hsnip := is_snippet_fresh_insert h1 hext
  refine ⟨e, ?_⟩
  unfold insert_snippet
  rw [if_neg (by simp [h1])]
  rw [if_neg (by have := List.length_pos.mpr h2; omega)]
  simp only [insertv, h1, Bool.false_eq_true, if_false]
  exact insert_metadata_list_error hsnip he

/-- C1 witness: the amended theorem at the counterexample input. -/
theorem C1_witness :
    (extensionOk (strToLower (Snippet.mk "a.py" "c" "py" "t").extension) = true ∧
     memv ⟨[], []⟩ (Snippet.mk "a.py" "c" "py" "t").name = false ∧
     [Metadata.mk "x" Category.concept] ≠ [] ∧
     (∃ m ∈ [Metadata.mk "x" Category.concept],
       format_metdata m ≠ (Snippet.mk "a.py" "c" "py" "t").name ∧
       (is_metadata ⟨[], []⟩ (format_metdata m) = false ∨
        m.category ≠ Category.concept))) ∧
    ∃ e, insert_snippet ⟨[], []⟩ ⟨"a.py", "c", "py", "t"⟩
        [⟨"x", Category.concept⟩] Category.concept
      = (.error e, ⟨[("a.py", snippet_model_dump_json ⟨"a.py", "c", "py", "t"⟩)], []⟩) :=
  ⟨⟨by decide, by decide, by decide, by decide⟩,
   C1_insert_snippet_bad_metadata_partial ⟨[], []⟩ ⟨"a.py", "c", "py", "t"⟩
     [⟨"x", Category.concept⟩] Category.concept (by decide) (by decide)
     (by decide) (by decide)⟩

/-- ASCII case folding fixes an already-lowercase character. -/
theorem char_toLower_of_isLower {c : Char} (h : c.isLower = true) :
    c.toLower = c := by
  simp only [Char.isLower, Bool.and_eq_true, decide_eq_true_eq] at h
  have h1 : 97 ≤ c.val.toNat :=
    UInt32.le_toNat_of_le (by norm_num [UInt32.size]) h.1
  unfold Char.toLower
  rw [if_neg]
  intro hcond
  have h2 : Char.toNat c = c.val.toNat := rfl
  omega

/-- `strToLower` fixes an all-lowercase string. -/
theorem strToLower_of_all_lower {e : String}
    (h : e.data.all Char.isLower = true) : strToLower e = e := by
  simp only [strToLower]
  have : e.data.map Char.toLower = e.data := by
    have h2 := List.all_eq_true.mp h
    calc e.data.map Char.toLower = e.data.map id :=
          List.map_congr_left (fun c hc => char_toLower_of_isLower (h2 c hc))
      _ = e.data := List.map_id _
  rw [this]

/-- `extensionOk` contains the all-lowercase constraint. -/
theorem extensionOk_all_lower {e : String} (h : extensionOk e = true) :
    e.data.all Char.isLower = true := by
  simp only [extensionOk, Bool.and_eq_true] at h
  exact h.1.2

/-- `os.path.splitext` splits a name of the form `stem.ext` back at the
appended dot when the extension is dot-free and the stem has a non-dot
character. -/
theorem splitext_append_ext {b e : String}
    (he : '.' ∉ e.data) (hb : b.data.any (fun c => c ≠ '.') = true) :
    splitext (b ++ "." ++ e) = (b, "." ++ e) := by
  have hdata : (b ++ "." ++ e).data = b.data ++ '.' :: e.data := by
    simp [String.data_append]
  have hrev : (b ++ "." ++ e).data.reverse
      = e.data.reverse ++ '.' :: b.data.reverse := by
    rw [hdata]
    simp
  have hne : '.' ∉ e.data.reverse := fun hm => he (List.mem_reverse.mp hm)
  unfold splitext
  rw [hrev, splitOnFirstChar_append hne]
  simp only [List.reverse_reverse]
  rw [if_pos hb]
  exact rfl

/-- The model validator is the identity on a name already of the form
`stem.ext` with a sound stem. -/
theorem snippetNormalizeName_fixed {b e : String}
    (he : '.' ∉ e.data) (hb : b.data.any (fun c => c ≠ '.') = true) :
    snippetNormalizeName (b ++ "." ++ e) e = b ++ "." ++ e := by
  simp only [snippetNormalizeName, splitext_append_ext he hb]

/-- An all-lowercase extension contains no dot. -/
theorem all_lower_no_dot {e : String}
    (h : e.data.all Char.isLower = true) : '.' ∉ e.data := by
  intro hm
  have := List.all_eq_true.mp h '.' hm
  exact absurd this (by decide)

/-- Validation of a snippet json dump with the `name` binding replaced by a
key. -/
theorem snippet_model_validate_dump_withkey (sn0 : Snippet) (key : String)
    (hext : extensionOk (strToLower sn0.extension) = true) :
    snippet_model_validate (setAttr (snippet_model_dump_json sn0) "name" key)
      = some { name := snippetNormalizeName key (strToLower sn0.extension)
               content := sn0.content
               extension := strToLower sn0.extension
               created_at := sn0.created_at } := by
  simp +decide only [setAttr, snippet_model_dump_json, List.filter]
  simp only [snippet_model_validate, lookupAttr]
  simp +decide only [List.find?]
  simp [hext]

/-- Validation of a snippet json dump itself. -/
theorem snippet_model_validate_dump (sn0 : Snippet)
    (hext : extensionOk (strToLower sn0.extension) = true) :
    snippet_model_validate (snippet_model_dump_json sn0)
      = some { name := snippetNormalizeName sn0.name (strToLower sn0.extension)
               content := sn0.content
               extension := strToLower sn0.extension
               created_at := sn0.created_at } := by
  simp only [snippet_model_validate, snippet_model_dump_json, lookupAttr]
  simp +decide only [List.find?]
  simp [hext]

/-- A present binding implies vertex membership. -/
theorem lookupAttrs_some_memv {s : GraphState} {k : String} {a : Attrs}
    (h : lookupAttrs s k = some a) : memv s k = true := by
  simp only [lookupAttrs, Option.map_eq_some'] at h
  obtain ⟨v, hv, -⟩ := h
  have h1 : v ∈ s.verts := List.mem_of_find?_eq_some hv
  have h2 : v.1 = k := by simpa using List.find?_some hv
  exact memv_iff_mem.mpr (h2 ▸ List.mem_map_of_mem Prod.fst h1)

/-- Replacing the binding of key `n` in the vertex list: lookup at `n`. -/
theorem find?_map_setkey (l : List (String × Attrs)) (n : String) (d : Attrs) :
    (l.map (fun v => if v.1 = n then (n, d) else v)).find? (fun v => v.1 = n)
      = (l.find? (fun v => v.1 = n)).map (fun _ => (n, d)) := by
  induction l with
  | nil => simp
  | cons v r ih =>
      by_cases h : v.1 = n
      · simp [h]
      · simp only [List.map_cons, if_neg h]
        rw [List.find?_cons_of_neg _ (by simp [h]),
            List.find?_cons_of_neg _ (by simp [h])]
        exact ih

/-- Replacing the binding of key `n`: lookup at any other key is unchanged. -/
theorem find?_map_setkey_ne (l : List (String × Attrs)) {n k : String}
    (d : Attrs) (hne : k ≠ n) :
    (l.map (fun v => if v.1 = n then (n, d) else v)).find? (fun v => v.1 = k)
      = l.find? (fun v => v.1 = k) := by
  induction l with
  | nil => simp
  | cons v r ih =>
      by_cases h : v.1 = n
      · rw [List.map_cons, if_pos h]
        rw [List.find?_cons_of_neg _ (by simp [Ne.symm hne]),
            List.find?_cons_of_neg _ (by simp [h, hne, Ne.symm hne])]
        exact ih
      · rw [List.map_cons, if_neg h]
        by_cases hk : v.1 = k
        · rw [List.find?_cons_of_pos _ (by simp [hk]),
              List.find?_cons_of_pos _ (by simp [hk])]
        · rw [List.find?_cons_of_neg _ (by simp [hk]),
              List.find?_cons_of_neg _ (by simp [hk])]
          exact ih

/-- Replacing a binding preserves the key listing. -/
theorem map_setkey_keys (l : List (String × Attrs)) (n : String) (d : Attrs) :
    (l.map (fun v => if v.1 = n then (n, d) else v)).map Prod.fst
      = l.map Prod.fst := by
  simp only [List.map_map]
  apply List.map_congr_left
  intro v _
  by_cases h : v.1 = n
  · simp [Function.comp, h]
  · simp [Function.comp, h]

/-- The successor decoding of `_get_all_metadata_from_snippet` succeeds when
every successor key parses as metadata. -/
theorem get_all_metadata_ok {s : GraphState} {n : String}
    (hm : memv s n = true)
    (h : ∀ k ∈ successorsOf s n, (parse_metadata k).isSome = true) :
    ∃ ms, get_all_metadata_from_snippet s n = .ok ms := by
  unfold get_all_metadata_from_snippet digraph_successors
  rw [if_pos hm]
  have main : ∀ l : List String, (∀ k ∈ l, (parse_metadata k).isSome = true) →
      ∃ ms, (l.mapM (fun key => match parse_metadata key with
        | some m => Except.ok m
        | none => Except.error (PyErr.valueError ("String not valid: " ++ key ++
            ". Requested format: name-category")))
          : Except PyErr (List Metadata)) = .ok ms := by
    intro l
    induction l with
    | nil => exact fun _ => ⟨[], rfl⟩
    | cons a r ih =>
        intro hl
        obtain ⟨m, hm2⟩ := Option.isSome_iff_exists.mp (hl a (List.mem_cons_self a r))
        obtain ⟨ms, hms⟩ := ih (fun k hk => hl k (List.mem_cons_of_mem _ hk))
        refine ⟨m :: ms, ?_⟩
        rw [List.mapM_cons, hm2]
        simp only [hms]
        rfl
  obtain ⟨ms, hms⟩ := main (successorsOf s n) h
  exact ⟨ms, hms⟩

/-- For a name that is not a stored snippet the update fails with the
not-found error and the state is unchanged. -/
theorem update_snippet_content_not_found (s : GraphState) (n content : String)
    (h : is_snippet s n = false) :
    update_snippet_content s n content
      = (.error (.valueError ("Snippet " ++ n ++ " does not exist")), s) := by
  unfold update_snippet_content get_snippet
  rw [if_pos (by simp [h])]

/-- C2 (amended): for every stored snippet whose stored attribute map is a
snippet dump keyed by its own name, whose name has a stem containing a
non-dot character, and whose successors decode as metadata,
`update_snippet_content` succeeds, replaces `content` and writes the full
map back with `created_at`, `name` and `extension` preserved unchanged, and
touches no other vertex and no edge.  (For a stored snippet whose name stem
is empty or all dots the write still succeeds but rewrites the `name` field
— see the counterexample.)  For a name that is not a stored snippet the
operation fails with the not-found error, second conjunct. -/
theorem C2_update_snippet_content (s : GraphState) (sn0 : Snippet)
    (content b : String)
    (h1 : lookupAttrs s sn0.name = some (snippet_model_dump_json sn0))
    (hext : extensionOk sn0.extension = true)
    (hb : sn0.name = b ++ "." ++ sn0.extension)
    (hbne : b.data.any (fun c => c ≠ '.') = true)
    (hsucc : ∀ k ∈ successorsOf s sn0.name, (parse_metadata k).isSome = true) :
    (∃ s2, update_snippet_content s sn0.name content = (.ok (), s2) ∧
      lookupAttrs s2 sn0.name
        = some (snippet_model_dump_json { sn0 with content := content }) ∧
      (∀ k, k ≠ sn0.name → lookupAttrs s2 k = lookupAttrs s k) ∧
      vertexKeys s2 = vertexKeys s ∧ s2.edges = s.edges) ∧
    (∀ n2 c2, is_snippet s n2 = false → update_snippet_content s n2 c2
      = (.error (.valueError ("Snippet " ++ n2 ++ " does not exist")), s)) := by
  refine ⟨?_, fun n2 c2 hn2 => update_snippet_content_not_found s n2 c2 hn2⟩
  have hlow : sn0.extension.data.all Char.isLower = true := extensionOk_all_lower hext
  have hfix : strToLower sn0.extension = sn0.extension := strToLower_of_all_lower hlow
  have hmemv : memv s sn0.name = true := lookupAttrs_some_memv h1
  have hnodot : '.' ∉ sn0.extension.data := all_lower_no_dot hlow
  have hext2 : extensionOk (strToLower sn0.extension) = true := by
    rw [hfix]; exact hext
  have hnorm2 : snippetNormalizeName sn0.name (strToLower sn0.extension)
      = sn0.name := by
    rw [hfix, hb]
    exact snippetNormalizeName_fixed hnodot hbne
  have hvalid_key :
      (snippet_model_validate (node_data_with_key s "name" sn0.name)).isSome
        = true := by
    simp only [node_data_with_key, h1, Option.getD_some]
    rw [snippet_model_validate_dump_withkey sn0 sn0.name hext2]
    rfl
  have hsnip : is_snippet s sn0.name = true := by
    simp [is_snippet, hmemv, hvalid_key]
  have hvalid : snippet_model_validate (snippet_model_dump_json sn0)
      = some sn0 := by
    rw [snippet_model_validate_dump sn0 hext2, hnorm2, hfix]
  obtain ⟨ms, hms⟩ := get_all_metadata_ok hmemv hsucc
  have hget : get_snippet s sn0.name = .ok (sn0, ms) := by
    unfold get_snippet
    rw [if_neg (not_not_intro hsnip), h1]
    simp only [Option.getD_some, hvalid, hms]
  refine ⟨{ s with verts := s.verts.map (fun v => if v.1 = sn0.name then
      (sn0.name, snippet_model_dump_json { sn0 with content := content })
      else v) }, ?_, ?_, ?_, ?_, rfl⟩
  · unfold update_snippet_content updatev
    rw [hget]
    dsimp only
    rw [if_pos hmemv]
  · simp only [lookupAttrs, find?_map_setkey]
    cases hf : s.verts.find? (fun v => v.1 = sn0.name) with
    | none =>
        rw [lookupAttrs, hf] at h1
        cases h1
    | some v => rfl
  · intro k hk
    simp only [lookupAttrs]
    rw [find?_map_setkey_ne _ _ hk]
  · simp only [vertexKeys]
    exact map_setkey_keys ..

/-- C2 (counterexample): a stored snippet whose name is `.py` (empty stem —
producible by inserting `Snippet(name="", extension="py")`) has its `name`
attribute rewritten to `.py.py` by a successful `update_snippet_content`:
the stored name is not preserved unchanged. -/
theorem C2_counterexample_dotted_stem :
    is_snippet ⟨[(".py", [("name", ".py"), ("content", "old"),
        ("extension", "py"), ("created_at", "t0")])], []⟩ ".py" = true ∧
    (update_snippet_content ⟨[(".py", [("name", ".py"), ("content", "old"),
        ("extension", "py"), ("created_at", "t0")])], []⟩ ".py" "new").1
      = .ok () ∧
    lookupAttr ((lookupAttrs (update_snippet_content
        ⟨[(".py", [("name", ".py"), ("content", "old"), ("extension", "py"),
          ("created_at", "t0")])], []⟩ ".py" "new").2 ".py").getD []) "name"
      = some ".py.py" := by
  refine ⟨?_, ?_, ?_⟩ <;> decide

/-- C2 witness: the amended theorem at a concrete stored snippet `a.py`. -/
theorem C2_witness :
    (lookupAttrs ⟨[("a.py", [("name", "a.py"), ("content", "old"),
        ("extension", "py"), ("created_at", "t0")])], []⟩
        (Snippet.mk "a.py" "old" "py" "t0").name
      = some (snippet_model_dump_json ⟨"a.py", "old", "py", "t0"⟩) ∧
     extensionOk (Snippet.mk "a.py" "old" "py" "t0").extension = true ∧
     (Snippet.mk "a.py" "old" "py" "t0").name
       = "a" ++ "." ++ (Snippet.mk "a.py" "old" "py" "t0").extension ∧
     ("a" : String).data.any (fun c => c ≠ '.') = true) ∧
    ∃ s2, update_snippet_content ⟨[("a.py", [("name", "a.py"),
        ("content", "old"), ("extension", "py"), ("created_at", "t0")])], []⟩
        "a.py" "new" = (.ok (), s2) ∧
      lookupAttrs s2 "a.py"
        = some (snippet_model_dump_json ⟨"a.py", "new", "py", "t0"⟩) :=
  ⟨⟨by decide, by decide, by decide, by decide⟩, by
    obtain ⟨⟨s2, hrun, hlook, -, -, -⟩, -⟩ :=
      C2_update_snippet_content
        ⟨[("a.py", [("name", "a.py"), ("content", "old"), ("extension", "py"),
          ("created_at", "t0")])], []⟩
        ⟨"a.py", "old", "py", "t0"⟩ "new" "a" (by decide) (by decide)
        (by decide) (by decide) (by decide)
    exact ⟨s2, hrun, hlook⟩⟩

/-- Unfolding of the worklist step on an existing vertex. -/
theorem collect_reachable_metadata_cons {s : GraphState} {current : String}
    {rest : List String} {visited : Finset String}
    (hmem : memv s current = true) :
    collect_reachable_metadata s (current :: rest) visited
      = collect_reachable_metadata s
          (rest ++ (filter_metadata_from_list s (successorsOf s current)).filter
            (fun m => m ∉ visited))
          (visited ∪ (filter_metadata_from_list s (successorsOf s current)).toFinset) := by
  rw [collect_reachable_metadata.eq_def]
  dsimp only
  rw [if_pos hmem]

/-- The visited set only grows. -/
theorem collect_reachable_metadata_mono (s : GraphState) :
    ∀ (worklist : List String) (visited : Finset String)
      (out : Finset String),
      collect_reachable_metadata s worklist visited = .ok out →
      visited ⊆ out := by
  intro worklist visited
  induction worklist, visited using collect_reachable_metadata.induct s with
  | case1 visited =>
      intro out hout
      rw [collect_reachable_metadata.eq_def] at hout
      cases hout
      exact subset_refl _
  | case2 current rest visited hmem sl ms vn wn =>
      rename_i ih
      intro out hout
      rw [collect_reachable_metadata_cons hmem] at hout
      exact (Finset.subset_union_left).trans (ih out hout)
  | case3 current rest visited hmem =>
      intro out hout
      rw [collect_reachable_metadata.eq_def] at hout
      dsimp only at hout
      rw [if_neg hmem] at hout
      cases hout

/-- The worklist computation returns a value whenever the initial worklist
holds existing vertices: it terminates on every finite graph state, cycles
included, because each newly enqueued vertex is an existing vertex newly
added to `visited` (the lexicographic measure of the definition). -/
theorem collect_reachable_metadata_ok (s : GraphState) :
    ∀ (worklist : List String) (visited : Finset String),
      (∀ x ∈ worklist, memv s x = true) →
      ∃ out, collect_reachable_metadata s worklist visited = .ok out := by
  intro worklist visited
  induction worklist, visited using collect_reachable_metadata.induct s with
  | case1 visited =>
      intro _
      exact ⟨visited, by rw [collect_reachable_metadata.eq_def]⟩
  | case2 current rest visited hmem sl ms vn wn =>
      rename_i ih
      intro h
      have hnew : ∀ x ∈ rest ++ (filter_metadata_from_list s
          (successorsOf s current)).filter (fun m => m ∉ visited),
          memv s x = true := by
        intro x hx
        rcases List.mem_append.mp hx with hx1 | hx1
        · exact h x (List.mem_cons_of_mem _ hx1)
        · exact is_metadata_memv
            (mem_filter_metadata_from_list.mp (List.mem_of_mem_filter hx1)).2
      obtain ⟨out, hout⟩ := ih hnew
      exact ⟨out, by rw [collect_reachable_metadata_cons hmem]; exact hout⟩
  | case3 current rest visited hmem =>
      intro h
      exact absurd (h current (List.mem_cons_self _ _)) hmem

/-- One traversal step of the closure computation: an edge out of a metadata
vertex whose target classifies as metadata. -/
def mstep (s : GraphState) (a b : String) : Prop :=
  is_metadata s a = true ∧ b ∈ successorsOf s a ∧ is_metadata s b = true

/-- Soundness: every collected vertex satisfies any `mstep`-closed predicate
holding on the worklist and the visited set. -/
theorem collect_reachable_metadata_sound (s : GraphState) (P : String → Prop)
    (hP : ∀ a b, P a → mstep s a b → P b) :
    ∀ (worklist : List String) (visited : Finset String),
      (∀ x ∈ worklist, is_metadata s x = true) →
      (∀ x ∈ worklist, P x) → (∀ x ∈ visited, P x) →
      ∀ out, collect_reachable_metadata s worklist visited = .ok out →
      ∀ x ∈ out, P x := by
  intro worklist visited
  induction worklist, visited using collect_reachable_metadata.induct s with
  | case1 visited =>
      intro _ _ hv out hout
      rw [collect_reachable_metadata.eq_def] at hout
      cases hout
      exact hv
  | case2 current rest visited hmem sl ms vn wn =>
      rename_i ih
      intro hwm hwP hvP out hout
      rw [collect_reachable_metadata_cons hmem] at hout
      have hcurm : is_metadata s current = true := hwm current (List.mem_cons_self _ _)
      have hcurP : P current := hwP current (List.mem_cons_self _ _)
      have hsuccP : ∀ m ∈ filter_metadata_from_list s (successorsOf s current),
          P m := by
        intro m hm
        obtain ⟨hm1, hm2⟩ := mem_filter_metadata_from_list.mp hm
        exact hP current m hcurP ⟨hcurm, hm1, hm2⟩
      refine ih ?_ ?_ ?_ out hout
      · intro x hx
        rcases List.mem_append.mp hx with hx1 | hx1
        · exact hwm x (List.mem_cons_of_mem _ hx1)
        · exact (mem_filter_metadata_from_list.mp (List.mem_of_mem_filter hx1)).2
      · intro x hx
        rcases List.mem_append.mp hx with hx1 | hx1
        · exact hwP x (List.mem_cons_of_mem _ hx1)
        · exact hsuccP x (List.mem_of_mem_filter hx1)
      · intro x hx
        rcases Finset.mem_union.mp hx with hx1 | hx1
        · exact hvP x hx1
        · exact hsuccP x (List.mem_toFinset.mp hx1)
  | case3 current rest visited hmem =>
      intro hwm _ _ out hout
      exact absurd (is_metadata_memv (hwm current (List.mem_cons_self _ _))) hmem

/-- Completeness invariant: on return, the collected set is closed under
`mstep`, provided every visited vertex is pending or already expanded. -/
theorem collect_reachable_metadata_closed (s : GraphState) :
    ∀ (worklist : List String) (visited : Finset String),
      (∀ y ∈ visited, y ∈ worklist ∨ ∀ z, mstep s y z → z ∈ visited) →
      ∀ out, collect_reachable_metadata s worklist visited = .ok out →
      ∀ y ∈ out, ∀ z, mstep s y z → z ∈ out := by
  intro worklist visited
  induction worklist, visited using collect_reachable_metadata.induct s with
  | case1 visited =>
      intro hinv out hout
      rw [collect_reachable_metadata.eq_def] at hout
      cases hout
      intro y hy z hz
      rcases hinv y hy with hy1 | hy1
      · cases hy1
      · exact hy1 z hz
  | case2 current rest visited hmem sl ms vn wn =>
      rename_i ih
      intro hinv out hout
      rw [collect_reachable_metadata_cons hmem] at hout
      refine ih ?_ out hout
      intro y hy
      rcases Finset.mem_union.mp hy with hy1 | hy1
      · rcases hinv y hy1 with hy2 | hy2
        · rcases List.mem_cons.mp hy2 with rfl | hy3
          · right
            intro z hz
            apply Finset.mem_union_right
            apply List.mem_toFinset.mpr
            exact mem_filter_metadata_from_list.mpr ⟨hz.2.1, hz.2.2⟩
          · left
            exact List.mem_append_left _ hy3
        · right
          intro z hz
          exact Finset.mem_union_left _ (hy2 z hz)
      · have hy2 := List.mem_toFinset.mp hy1
        by_cases hyv : y ∈ visited
        · rcases hinv y hyv with hy3 | hy3
          · rcases List.mem_cons.mp hy3 with rfl | hy4
            · right
              intro z hz
              apply Finset.mem_union_right
              apply List.mem_toFinset.mpr
              exact mem_filter_metadata_from_list.mpr ⟨hz.2.1, hz.2.2⟩
            · exact Or.inl (List.mem_append_left _ hy4)
          · right
            intro z hz
            exact Finset.mem_union_left _ (hy3 z hz)
        · left
          apply List.mem_append_right
          exact List.mem_filter.mpr ⟨hy2, by simpa using hyv⟩
  | case3 current rest visited hmem =>
      intro hinv out hout
      rw [collect_reachable_metadata.eq_def] at hout
      dsimp only at hout
      rw [if_neg hmem] at hout
      cases hout

/-- C5: for every finite graph state — including one whose
`metadata_parent` relation contains a cycle — the worklist computation
underlying `get_metadata_tree` terminates with a value (given a worklist of
existing vertices, as at every call site), returning a superset of the
visited set.  Totality of `collect_reachable_metadata` rests on the
lexicographic measure (unvisited existing vertices, worklist length): it
decreases at every step precisely because each vertex is enqueued at most
once — a vertex is enqueued only when not yet visited and is simultaneously
added to `visited`. -/
theorem C5_collect_reachable_terminates (s : GraphState)
    (worklist : List String) (visited : Finset String)
    (h : ∀ x ∈ worklist, memv s x = true) :
    ∃ out, collect_reachable_metadata s worklist visited = .ok out ∧
      visited ⊆ out := by
  obtain ⟨out, hout⟩ := collect_reachable_metadata_ok s worklist visited h
  exact ⟨out, hout, collect_reachable_metadata_mono s worklist visited out hout⟩

/-- C5 witness: the termination theorem applied on a two-vertex
`metadata_parent` cycle. -/
theorem C5_witness :
    (∀ x ∈ ["a-concept"],
      memv ⟨[("a-concept", [("name", "a"), ("category", "concept")]),
             ("b-concept", [("name", "b"), ("category", "concept")])],
            [("a-concept", "b-concept", "metadata_parent"),
             ("b-concept", "a-concept", "metadata_parent")]⟩ x = true) ∧
    ∃ out, collect_reachable_metadata
        ⟨[("a-concept", [("name", "a"), ("category", "concept")]),
          ("b-concept", [("name", "b"), ("category", "concept")])],
         [("a-concept", "b-concept", "metadata_parent"),
          ("b-concept", "a-concept", "metadata_parent")]⟩
        ["a-concept"] {"a-concept"} = .ok out ∧
      ({"a-concept"} : Finset String) ⊆ out :=
  ⟨by decide,
   C5_collect_reachable_terminates
     ⟨[("a-concept", [("name", "a"), ("category", "concept")]),
       ("b-concept", [("name", "b"), ("category", "concept")])],
      [("a-concept", "b-concept", "metadata_parent"),
       ("b-concept", "a-concept", "metadata_parent")]⟩
     ["a-concept"] {"a-concept"} (by decide)⟩

/-- The collected set from a singleton metadata root is exactly the set of
`mstep`-reachable vertices. -/
theorem collect_reachable_metadata_reach_iff (s : GraphState) (k : String)
    (hk : is_metadata s k = true) (out : Finset String)
    (hout : collect_reachable_metadata s [k] {k} = .ok out) :
    ∀ x, x ∈ out ↔ Relation.ReflTransGen (mstep s) k x := by
  intro x
  constructor
  · refine collect_reachable_metadata_sound s
      (Relation.ReflTransGen (mstep s) k)
      (fun a b ha hab => ha.tail hab) [k] {k} ?_ ?_ ?_ out hout x
    · intro y hy
      rw [List.mem_singleton.mp hy]
      exact hk
    · intro y hy
      rw [List.mem_singleton.mp hy]
    · intro y hy
      rw [Finset.mem_singleton.mp hy]
  · intro hreach
    have hin : k ∈ out :=
      collect_reachable_metadata_mono s [k] {k} out hout
        (Finset.mem_singleton_self k)
    have hcl := collect_reachable_metadata_closed s [k] {k}
      (by
        intro y hy
        left
        rw [Finset.mem_singleton.mp hy]
        exact List.mem_singleton_self k)
      out hout
    induction hreach with
    | refl => exact hin
    | tail hr hstep ihh => exact hcl _ ihh _ hstep

/-- Every collected vertex is the root or classifies as metadata. -/
theorem collect_reachable_metadata_all_metadata (s : GraphState) (k : String)
    (hk : is_metadata s k = true) (out : Finset String)
    (hout : collect_reachable_metadata s [k] {k} = .ok out) :
    ∀ x ∈ out, is_metadata s x = true := by
  refine collect_reachable_metadata_sound s (fun x => is_metadata s x = true)
    (fun a b _ hab => hab.2.2) [k] {k} ?_ ?_ ?_ out hout
  · intro y hy
    rw [List.mem_singleton.mp hy]
    exact hk
  · intro y hy
    rw [List.mem_singleton.mp hy]
    exact hk
  · intro y hy
    rw [Finset.mem_singleton.mp hy]
    exact hk

/-- A `metadata_parent`-labeled edge of the store. -/
def mp_step (s : GraphState) (a b : String) : Prop :=
  (a, b, RelationType.metadata_parent.value) ∈ s.edges

/-- Successor membership unfolds to edge existence. -/
theorem mem_successorsOf {s : GraphState} {a b : String} :
    b ∈ successorsOf s a ↔ ∃ l, (a, b, l) ∈ s.edges := by
  simp only [successorsOf, List.mem_filterMap]
  constructor
  · rintro ⟨e, he, hif⟩
    by_cases h : e.1 = a
    · rw [if_pos h] at hif
      have hb : e.2.1 = b := Option.some_inj.mp hif
      refine ⟨e.2.2, ?_⟩
      have : e = (a, b, e.2.2) := by
        obtain ⟨e1, e2, e3⟩ := e
        simp only at h hb
        rw [h, hb]
      rw [← this]
      exact he
    · rw [if_neg h] at hif
      cases hif
  · rintro ⟨l, hl⟩
    exact ⟨(a, b, l), hl, by simp⟩

/-- Under the domain label invariants, the traversal step taken by the
closure computation coincides with following a `metadata_parent` edge. -/
theorem mstep_iff_mp_step {s : GraphState}
    (H1 : ∀ e ∈ s.edges, is_metadata s e.1 = true →
      is_metadata s e.2.1 = true → e.2.2 = RelationType.metadata_parent.value)
    (H2 : ∀ e ∈ s.edges, e.2.2 = RelationType.metadata_parent.value →
      is_metadata s e.1 = true ∧ is_metadata s e.2.1 = true) :
    ∀ a b, mstep s a b ↔ mp_step s a b := by
  intro a b
  constructor
  · rintro ⟨ha, hsucc, hb⟩
    obtain ⟨l, hl⟩ := mem_successorsOf.mp hsucc
    have hlab := H1 (a, b, l) hl ha hb
    simp only at hlab
    unfold mp_step
    rw [← hlab]
    exact hl
  · intro h
    obtain ⟨ha, hb⟩ := H2 (a, b, RelationType.metadata_parent.value) h rfl
    exact ⟨ha, mem_successorsOf.mpr ⟨_, h⟩, hb⟩

/-- A present vertex has a stored attribute map. -/
theorem memv_lookupAttrs {s : GraphState} {k : String}
    (h : memv s k = true) : ∃ a, lookupAttrs s k = some a := by
  have hm := memv_iff_mem.mp h
  obtain ⟨v, hv, rfl⟩ := List.mem_map.mp hm
  have hsome : (s.verts.find? (fun w => w.1 = v.1)).isSome :=
    List.find?_isSome.mpr ⟨v, hv, by simp⟩
  obtain ⟨w, hw⟩ := Option.isSome_iff_exists.mp hsome
  exact ⟨w.2, by simp [lookupAttrs, hw]⟩

/-- Node construction of the tree succeeds on existing keys and lists
exactly the stored attribute maps. -/
theorem build_tree_nodes_spec (s : GraphState) (ks : List String)
    (h : ∀ k ∈ ks, memv s k = true) :
    ∃ nodes, build_tree_nodes s ks = .ok nodes ∧
      ∀ x a, (x, a) ∈ nodes ↔ (x ∈ ks ∧ lookupAttrs s x = some a) := by
  induction ks with
  | nil => exact ⟨[], rfl, by simp⟩
  | cons k r ih =>
      obtain ⟨nodes, hn, hspec⟩ := ih (fun x hx => h x (List.mem_cons_of_mem _ hx))
      obtain ⟨a0, ha0⟩ := memv_lookupAttrs (h k (List.mem_cons_self _ _))
      refine ⟨(k, a0) :: nodes, ?_, ?_⟩
      · unfold build_tree_nodes at hn ⊢
        rw [List.mapM_cons, ha0]
        simp only [hn]
        rfl
      · intro x a
        simp only [List.mem_cons, Prod.mk.injEq]
        constructor
        · rintro (⟨rfl, rfl⟩ | hmem)
          · exact ⟨Or.inl rfl, ha0⟩
          · obtain ⟨hx, hl⟩ := (hspec x a).mp hmem
            exact ⟨Or.inr hx, hl⟩
        · rintro ⟨rfl | hx, hl⟩
          · rw [ha0] at hl
            exact Or.inl ⟨rfl, (Option.some_inj.mp hl).symm⟩
          · exact Or.inr ((hspec x a).mpr ⟨hx, hl⟩)

/-- Membership in the per-source edge listing of the tree construction. -/
theorem mem_tree_edges_from {s : GraphState} {reachable : Finset String}
    {src : String} {p : String × String × Option String} :
    p ∈ tree_edges_from s reachable src ↔
      (p.1 = src ∧ p.2.1 ∈ successorsOf s src ∧ p.2.1 ∈ reachable ∧
       p.2.2 = getelabel s src p.2.1) := by
  simp only [tree_edges_from, List.mem_filterMap]
  constructor
  · rintro ⟨dst, hdst, hif⟩
    by_cases hd : dst ∈ reachable
    · rw [if_pos hd] at hif
      have hp : p = (src, dst, getelabel s src dst) := (Option.some_inj.mp hif).symm
      rw [hp]
      exact ⟨rfl, hdst, hd, rfl⟩
    · rw [if_neg hd] at hif
      cases hif
  · rintro ⟨h1, h2, h3, h4⟩
    refine ⟨p.2.1, h2, ?_⟩
    rw [if_pos h3]
    obtain ⟨q1, q2, q3⟩ := p
    simp only at h1 h4 ⊢
    rw [h1, h4]

/-- Edge construction of the tree succeeds on existing sources and lists
exactly the store's edges into the reachable set. -/
theorem build_tree_edges_spec (s : GraphState) (reachable : Finset String)
    (ks : List String) (h : ∀ k ∈ ks, memv s k = true) :
    ∃ edges, build_tree_edges s reachable ks = .ok edges ∧
      ∀ p : String × String × Option String, p ∈ edges ↔
        (p.1 ∈ ks ∧ p.2.1 ∈ successorsOf s p.1 ∧ p.2.1 ∈ reachable ∧
         p.2.2 = getelabel s p.1 p.2.1) := by
  have main : ∀ l : List String, (∀ k ∈ l, memv s k = true) →
      (l.mapM (fun src => if memv s src then
          Except.ok (tree_edges_from s reachable src)
        else Except.error (PyErr.networkxError
          ("The node " ++ src ++ " is not in the digraph."))))
        = .ok (l.map (tree_edges_from s reachable)) := by
    intro l
    induction l with
    | nil => intro _; rfl
    | cons a r ih =>
        intro hl
        rw [List.mapM_cons, if_pos (hl a (List.mem_cons_self _ _))]
        simp only [ih (fun k hk => hl k (List.mem_cons_of_mem _ hk))]
        rfl
  refine ⟨(ks.map (tree_edges_from s reachable)).flatten, ?_, ?_⟩
  · unfold build_tree_edges
    rw [main ks h]
    rfl
  · intro p
    rw [List.mem_flatten]
    constructor
    · rintro ⟨l, hl, hp⟩
      obtain ⟨src, hsrc, rfl⟩ := List.mem_map.mp hl
      obtain ⟨h1, h2, h3, h4⟩ := mem_tree_edges_from.mp hp
      rw [← h1] at hsrc h2 h4
      exact ⟨hsrc, h2, h3, h4⟩
    · rintro ⟨h1, h2, h3, h4⟩
      exact ⟨tree_edges_from s reachable p.1,
        List.mem_map_of_mem _ h1, mem_tree_edges_from.mpr ⟨rfl, h2, h3, h4⟩⟩

/-- C6: for every key that decodes as metadata and exists, the returned tree
is the induced subgraph of the forward-reachable closure over
`metadata_parent` edges — node set exactly the reachable vertices with their
stored attribute maps, edge set exactly the store's edges between reachable
vertices annotated with their stored labels (under the domain label
invariants: edges between metadata vertices carry the `metadata_parent`
label and `metadata_parent` edges connect metadata vertices); for every key
not decoding as metadata the operation fails with the not-found error. -/
theorem C6_get_metadata_tree (s : GraphState) (k : String)
    (hk : is_metadata s k = true)
    (H1 : ∀ e ∈ s.edges, is_metadata s e.1 = true →
      is_metadata s e.2.1 = true → e.2.2 = RelationType.metadata_parent.value)
    (H2 : ∀ e ∈ s.edges, e.2.2 = RelationType.metadata_parent.value →
      is_metadata s e.1 = true ∧ is_metadata s e.2.1 = true) :
    (∃ t, get_metadata_tree s k = .ok t ∧
      (∀ x a, (x, a) ∈ t.nodes ↔
        (Relation.ReflTransGen (mp_step s) k x ∧ lookupAttrs s x = some a)) ∧
      (∀ p : String × String × Option String, p ∈ t.edges ↔
        (Relation.ReflTransGen (mp_step s) k p.1 ∧
         Relation.ReflTransGen (mp_step s) k p.2.1 ∧
         (∃ l, (p.1, p.2.1, l) ∈ s.edges) ∧
         p.2.2 = getelabel s p.1 p.2.1))) ∧
    (∀ k2, parse_metadata k2 = none →
      get_metadata_tree s k2
        = .error (.valueError ("Node " ++ k2 ++ " is not metadata"))) := by
  constructor
  · obtain ⟨out, hout⟩ := collect_reachable_metadata_ok s [k] {k}
      (by
        intro x hx
        rw [List.mem_singleton.mp hx]
        exact is_metadata_memv hk)
    have hreach := collect_reachable_metadata_reach_iff s k hk out hout
    have hmeta := collect_reachable_metadata_all_metadata s k hk out hout
    have hiff := mstep_iff_mp_step H1 H2
    have hreach2 : ∀ x, x ∈ out ↔ Relation.ReflTransGen (mp_step s) k x := by
      intro x
      rw [hreach x]
      constructor
      · exact Relation.ReflTransGen.mono (fun a b hab => (hiff a b).mp hab)
      · exact Relation.ReflTransGen.mono (fun a b hab => (hiff a b).mpr hab)
    have hks_mem : ∀ x, x ∈ out.sort (fun a b => a ≤ b) ↔ x ∈ out := fun x =>
      Finset.mem_sort _
    have hks_memv : ∀ x ∈ out.sort (fun a b => a ≤ b), memv s x = true :=
      fun x hx => is_metadata_memv (hmeta x ((hks_mem x).mp hx))
    obtain ⟨nodes, hn, hnspec⟩ :=
      build_tree_nodes_spec s (out.sort (fun a b => a ≤ b)) hks_memv
    obtain ⟨edges, he, hespec⟩ :=
      build_tree_edges_spec s out (out.sort (fun a b => a ≤ b)) hks_memv
    refine ⟨⟨nodes, edges⟩, ?_, ?_, ?_⟩
    · unfold get_metadata_tree
      rw [if_neg (not_not_intro hk)]
      simp only [hout, hn, he]
    · intro x a
      rw [hnspec x a]
      constructor
      · rintro ⟨h1, h2⟩
        exact ⟨(hreach2 x).mp ((hks_mem x).mp h1), h2⟩
      · rintro ⟨h1, h2⟩
        exact ⟨(hks_mem x).mpr ((hreach2 x).mpr h1), h2⟩
    · intro p
      rw [hespec p]
      constructor
      · rintro ⟨h1, h2, h3, h4⟩
        exact ⟨(hreach2 _).mp ((hks_mem _).mp h1), (hreach2 _).mp h3,
               mem_successorsOf.mp h2, h4⟩
      · rintro ⟨h1, h2, h3, h4⟩
        exact ⟨(hks_mem _).mpr ((hreach2 _).mpr h1), mem_successorsOf.mpr h3,
               (hreach2 _).mpr h2, h4⟩
  · intro k2 hk2
    have hm2 : is_metadata s k2 = false := by
      simp [is_metadata, hk2]
    unfold get_metadata_tree
    rw [if_pos (by simp [hm2])]

/-- C6 witness: the tree characterization at the two-vertex example
`algorithm-concept → sorting-concept`. -/
theorem C6_witness :
    (is_metadata ⟨[("algorithm-concept",
        [("name", "algorithm"), ("category", "concept")]),
       ("sorting-concept", [("name", "sorting"), ("category", "concept")])],
      [("algorithm-concept", "sorting-concept", "metadata_parent")]⟩
      "algorithm-concept" = true ∧
     (∀ e ∈ [("algorithm-concept", "sorting-concept", "metadata_parent")],
       is_metadata ⟨[("algorithm-concept",
           [("name", "algorithm"), ("category", "concept")]),
          ("sorting-concept", [("name", "sorting"), ("category", "concept")])],
         [("algorithm-concept", "sorting-concept", "metadata_parent")]⟩
         (e : String × String × String).1 = true →
       is_metadata ⟨[("algorithm-concept",
           [("name", "algorithm"), ("category", "concept")]),
          ("sorting-concept", [("name", "sorting"), ("category", "concept")])],
         [("algorithm-concept", "sorting-concept", "metadata_parent")]⟩
         e.2.1 = true →
       e.2.2 = RelationType.metadata_parent.value)) ∧
    ∃ t, get_metadata_tree ⟨[("algorithm-concept",
        [("name", "algorithm"), ("category", "concept")]),
       ("sorting-concept", [("name", "sorting"), ("category", "concept")])],
      [("algorithm-concept", "sorting-concept", "metadata_parent")]⟩
      "algorithm-concept" = .ok t ∧
      (∀ x a, (x, a) ∈ t.nodes ↔
        (Relation.ReflTransGen (mp_step ⟨[("algorithm-concept",
            [("name", "algorithm"), ("category", "concept")]),
           ("sorting-concept", [("name", "sorting"), ("category", "concept")])],
          [("algorithm-concept", "sorting-concept", "metadata_parent")]⟩)
          "algorithm-concept" x ∧
         lookupAttrs ⟨[("algorithm-concept",
            [("name", "algorithm"), ("category", "concept")]),
           ("sorting-concept", [("name", "sorting"), ("category", "concept")])],
          [("algorithm-concept", "sorting-concept", "metadata_parent")]⟩
          x = some a)) :=
  ⟨⟨by decide, by decide⟩, by
    obtain ⟨⟨t, hok, hnodes, -⟩, -⟩ :=
      C6_get_metadata_tree
        ⟨[("algorithm-concept", [("name", "algorithm"), ("category", "concept")]),
          ("sorting-concept", [("name", "sorting"), ("category", "concept")])],
         [("algorithm-concept", "sorting-concept", "metadata_parent")]⟩
        "algorithm-concept" (by decide) (by decide) (by decide)
    exact ⟨t, hok, hnodes⟩⟩

/-- The graph with every vertex in `D` removed together with its incident
edges: the cumulative effect of the `deletev` calls of the cascade. -/
def eraseKeys (s : GraphState) (D : List String) : GraphState :=
  { verts := s.verts.filter (fun v => ¬ v.1 ∈ D)
    edges := s.edges.filter (fun e => ¬ e.1 ∈ D && ¬ e.2.1 ∈ D) }

/-- Erasing nothing is the identity. -/
theorem eraseKeys_nil (s : GraphState) : eraseKeys s [] = s := by
  simp [eraseKeys]

/-- `eraseKeys` depends on the erased list only through membership. -/
theorem eraseKeys_congr {s : GraphState} {D1 D2 : List String}
    (h : ∀ x, x ∈ D1 ↔ x ∈ D2) : eraseKeys s D1 = eraseKeys s D2 := by
  unfold eraseKeys
  congr 1
  · apply List.filter_congr
    intro v _
    simp [h v.1]
  · apply List.filter_congr
    intro e _
    simp [h e.1, h e.2.1]

/-- `find?` is unaffected by a filter that keeps every match. -/
theorem find?_filter_of_imp {α} {p q : α → Bool} {l : List α}
    (h : ∀ x, p x = true → q x = true) :
    (l.filter q).find? p = l.find? p := by
  induction l with
  | nil => simp
  | cons a r ih =>
      cases hp : p a
      · cases hq : q a
        · rw [List.filter_cons_of_neg (by simp [hq]),
              List.find?_cons_of_neg _ (by simp [hp])]
          exact ih
        · rw [List.filter_cons_of_pos (by simp [hq]),
              List.find?_cons_of_neg _ (by simp [hp]),
              List.find?_cons_of_neg _ (by simp [hp])]
          exact ih
      · have hq := h a hp
        rw [List.filter_cons_of_pos (by simp [hq]),
            List.find?_cons_of_pos _ hp, List.find?_cons_of_pos _ hp]

/-- `any` is unaffected by a filter that keeps every match. -/
theorem any_filter_of_imp {α} {p q : α → Bool} {l : List α}
    (h : ∀ x, p x = true → q x = true) :
    (l.filter q).any p = l.any p := by
  induction l with
  | nil => simp
  | cons a r ih =>
      cases hp : p a
      · cases hq : q a
        · rw [List.filter_cons_of_neg (by simp [hq])]
          simp only [List.any_cons, hp, Bool.false_or]
          exact ih
        · rw [List.filter_cons_of_pos (by simp [hq])]
          simp only [List.any_cons, hp, Bool.false_or]
          exact ih
      · have hq := h a hp
        rw [List.filter_cons_of_pos (by simp [hq])]
        simp [hp]

/-- Membership in the erased graph. -/
theorem memv_eraseKeys {s : GraphState} {D : List String} {k : String} :
    memv (eraseKeys s D) k = true ↔ (memv s k = true ∧ k ∉ D) := by
  simp only [memv_iff_mem, vertexKeys, eraseKeys, List.mem_map, List.mem_filter]
  constructor
  · rintro ⟨v, ⟨hv, hd⟩, rfl⟩
    exact ⟨⟨v, hv, rfl⟩, by simpa using hd⟩
  · rintro ⟨⟨v, hv, rfl⟩, hd⟩
    exact ⟨v, ⟨hv, by simpa using hd⟩, rfl⟩

/-- Membership of an unerased key is unchanged. -/
theorem memv_eraseKeys_not_mem {s : GraphState} {D : List String} {k : String}
    (hk : k ∉ D) : memv (eraseKeys s D) k = memv s k := by
  cases h : memv s k
  · cases h2 : memv (eraseKeys s D) k
    · rfl
    · obtain ⟨h3, -⟩ := memv_eraseKeys.mp h2
      rw [h] at h3
      cases h3
  · exact memv_eraseKeys.mpr ⟨h, hk⟩

/-- The attribute map of an unerased key is unchanged. -/
theorem lookupAttrs_eraseKeys {s : GraphState} {D : List String} {k : String}
    (hk : k ∉ D) : lookupAttrs (eraseKeys s D) k = lookupAttrs s k := by
  simp only [lookupAttrs, eraseKeys]
  rw [find?_filter_of_imp]
  intro v hv
  have : v.1 = k := by simpa using hv
  simp [this, hk]

/-- `is_metadata` of an unerased key is unchanged. -/
theorem is_metadata_eraseKeys {s : GraphState} {D : List String} {k : String}
    (hk : k ∉ D) : is_metadata (eraseKeys s D) k = is_metadata s k := by
  simp only [is_metadata, memv_eraseKeys_not_mem hk]

/-- `is_snippet` of an unerased key is unchanged. -/
theorem is_snippet_eraseKeys {s : GraphState} {D : List String} {k : String}
    (hk : k ∉ D) : is_snippet (eraseKeys s D) k = is_snippet s k := by
  simp only [is_snippet, node_data_with_key, memv_eraseKeys_not_mem hk,
    lookupAttrs_eraseKeys hk]

/-- An edge between unerased endpoints is unaffected. -/
theorem meme_eraseKeys {s : GraphState} {D : List String} {a b : String}
    (ha : a ∉ D) (hb : b ∉ D) :
    meme (eraseKeys s D) a b = meme s a b := by
  simp only [meme, eraseKeys]
  rw [any_filter_of_imp]
  intro e he
  simp only [Bool.and_eq_true, decide_eq_true_eq] at he ⊢
  exact ⟨he.1 ▸ ha, he.2 ▸ hb⟩

/-- Successors of an unerased key: the original successors outside `D`. -/
theorem successorsOf_eraseKeys {s : GraphState} {D : List String} {k : String}
    (hk : k ∉ D) :
    successorsOf (eraseKeys s D) k
      = (successorsOf s k).filter (fun x => ¬ x ∈ D) := by
  simp only [successorsOf, eraseKeys]
  induction s.edges with
  | nil => rfl
  | cons e r ih =>
      simp only [decide_not] at ih
      by_cases h1 : e.1 = k <;> by_cases h2 : e.2.1 ∈ D <;>
        by_cases h3 : e.1 ∈ D <;>
        simp [List.filter_cons, List.filterMap_cons, h1, h2, h3, hk, ih]

/-- `deletev` on an erased graph erases one more key. -/
theorem deletev_eraseKeys {s : GraphState} {D : List String} {d : String}
    (hmem : memv (eraseKeys s D) d = true) :
    deletev (eraseKeys s D) d = (.ok (), eraseKeys s (d :: D)) := by
  unfold deletev
  rw [if_pos hmem]
  unfold eraseKeys
  dsimp only
  rw [Prod.mk.injEq, GraphState.mk.injEq]
  refine ⟨rfl, ?_, ?_⟩
  · rw [List.filter_filter]
    apply List.filter_congr
    intro v _
    by_cases h1 : v.1 = d <;> by_cases h2 : v.1 ∈ D <;> simp [h1, h2]
  · rw [List.filter_filter]
    apply List.filter_congr
    intro e _
    by_cases h1 : e.1 = d <;> by_cases h2 : e.1 ∈ D <;>
      by_cases h3 : e.2.1 = d <;> by_cases h4 : e.2.1 ∈ D <;>
        simp [h1, h2, h3, h4]

/-- Membership in `filter_snippets_from_vertices`. -/
theorem mem_filter_snippets_from_vertices {s : GraphState} {l : List String}
    {x : String} : x ∈ filter_snippets_from_vertices s l ↔
      x ∈ l ∧ is_snippet s x = true := by
  induction l with
  | nil => simp [filter_snippets_from_vertices]
  | cons a r ih =>
      by_cases h : is_snippet s a
      · simp only [filter_snippets_from_vertices, if_pos h, List.mem_cons, ih]
        constructor
        · rintro (rfl | ⟨hr, hm⟩)
          · exact ⟨Or.inl rfl, h⟩
          · exact ⟨Or.inr hr, hm⟩
        · rintro ⟨rfl | hr, hm⟩
          · exact Or.inl rfl
          · exact Or.inr ⟨hr, hm⟩
      · simp only [filter_snippets_from_vertices, if_neg h, ih, List.mem_cons]
        constructor
        · rintro ⟨hr, hm⟩
          exact ⟨Or.inr hr, hm⟩
        · rintro ⟨rfl | hr, hm⟩
          · exact absurd hm h
          · exact ⟨hr, hm⟩

/-- Predecessor membership unfolds to edge existence. -/
theorem mem_predecessorsOf {s : GraphState} {a b : String} :
    a ∈ predecessorsOf s b ↔ ∃ l, (a, b, l) ∈ s.edges := by
  simp only [predecessorsOf, List.mem_filterMap]
  constructor
  · rintro ⟨e, he, hif⟩
    by_cases h : e.2.1 = b
    · rw [if_pos h] at hif
      have ha : e.1 = a := Option.some_inj.mp hif
      refine ⟨e.2.2, ?_⟩
      have : e = (a, b, e.2.2) := by
        obtain ⟨e1, e2, e3⟩ := e
        simp only at h ha
        rw [h, ha]
      rw [← this]
      exact he
    · rw [if_neg h] at hif
      cases hif
  · rintro ⟨l, hl⟩
    exact ⟨(a, b, l), hl, by simp⟩

/-- `meme` unfolds to edge existence. -/
theorem meme_iff {s : GraphState} {a b : String} :
    meme s a b = true ↔ ∃ l, (a, b, l) ∈ s.edges := by
  simp only [meme, List.any_eq_true, Bool.and_eq_true, decide_eq_true_eq]
  constructor
  · rintro ⟨e, he, h1, h2⟩
    refine ⟨e.2.2, ?_⟩
    have : e = (a, b, e.2.2) := by
      obtain ⟨e1, e2, e3⟩ := e
      simp only at h1 h2
      rw [h1, h2]
    rw [← this]
    exact he
  · rintro ⟨l, hl⟩
    exact ⟨(a, b, l), hl, rfl, rfl⟩

/-- The conditional of the cascade unfolded into its conjuncts. -/
theorem only_metadata_of_snippet_iff {s : GraphState} {m_key k : String} :
    only_metadata_of_snippet s m_key k = true ↔
      (is_metadata s m_key = true ∧ is_snippet s k = true ∧
       (successorsOf s k).length = 1 ∧ meme s k m_key = true) := by
  unfold only_metadata_of_snippet
  by_cases h : (is_metadata s m_key && is_snippet s k) = true
  · rw [if_pos h]
    obtain ⟨h1, h2⟩ := Bool.and_eq_true _ _ ▸ h
    constructor
    · intro hc
      obtain ⟨hc1, hc2⟩ := Bool.and_eq_true _ _ ▸ hc
      exact ⟨h1, h2, by simpa using hc1, hc2⟩
    · rintro ⟨-, -, hc1, hc2⟩
      simp [hc1, hc2]
  · rw [if_neg h]
    constructor
    · intro hc
      cases hc
    · rintro ⟨h1, h2, -, -⟩
      exact absurd (by simp [h1, h2]) h

/-- Main cascade loop invariant: processing a duplicate-free list of
snippets of the original state, with a set `D` of already-deleted cascade
snippets erased, deletes exactly the further list entries whose cascade
condition holds in the original state. -/
theorem delete_snippets_loop_spec (s : GraphState) (m_key : String)
    (Hexcl : ∀ k ∈ vertexKeys s, ¬ (is_snippet s k = true ∧ is_metadata s k = true))
    (Hsnip : ∀ e ∈ s.edges, is_snippet s e.1 = true → is_metadata s e.2.1 = true)
    (Hm : is_metadata s m_key = true) :
    ∀ (r D : List String), r.Nodup →
      (∀ d ∈ D, is_snippet s d = true) →
      (∀ x ∈ r, is_snippet s x = true ∧ x ∉ D) →
      delete_snippets_with_only_m (eraseKeys s D) m_key r
        = (.ok (), eraseKeys s
            (D ++ r.filter (fun x => only_metadata_of_snippet s m_key x))) := by
  intro r
  induction r with
  | nil =>
      intro D _ _ _
      rw [delete_snippets_with_only_m.eq_1, List.filter_nil, List.append_nil]
  | cons sk r ih =>
      intro D hnd hD hr
      have hskS : is_snippet s sk = true := (hr sk (List.mem_cons_self _ _)).1
      have hskD : sk ∉ D := (hr sk (List.mem_cons_self _ _)).2
      have hmD : m_key ∉ D := by
        intro hm2
        exact Hexcl m_key (memv_iff_mem.mp (is_metadata_memv Hm)) ⟨hD m_key hm2, Hm⟩
      have hmeta2 : is_metadata (eraseKeys s D) m_key = is_metadata s m_key :=
        is_metadata_eraseKeys hmD
      have hsnip2 : is_snippet (eraseKeys s D) sk = is_snippet s sk :=
        is_snippet_eraseKeys hskD
      have hmeme2 : meme (eraseKeys s D) sk m_key = meme s sk m_key :=
        meme_eraseKeys hskD hmD
      have hsucc2 : successorsOf (eraseKeys s D) sk = successorsOf s sk := by
        rw [successorsOf_eraseKeys hskD]
        apply List.filter_eq_self.mpr
        intro x hx
        have hxm : is_metadata s x = true := by
          obtain ⟨l, hl⟩ := mem_successorsOf.mp hx
          exact Hsnip (sk, x, l) hl hskS
        have hxD : x ∉ D := by
          intro hx2
          exact Hexcl x (memv_iff_mem.mp (is_metadata_memv hxm)) ⟨hD x hx2, hxm⟩
        simpa using hxD
      have hcond : only_metadata_of_snippet (eraseKeys s D) m_key sk
          = only_metadata_of_snippet s m_key sk := by
        unfold only_metadata_of_snippet
        rw [hmeta2, hsnip2, hmeme2, hsucc2]
      rw [delete_snippets_with_only_m.eq_2, hcond]
      by_cases hc : only_metadata_of_snippet s m_key sk = true
      · rw [if_pos hc]
        have hmemv2 : memv (eraseKeys s D) sk = true := by
          rw [memv_eraseKeys_not_mem hskD]
          exact is_snippet_memv hskS
        have hds : delete_snippet (eraseKeys s D) sk
            = (.ok (), eraseKeys s (sk :: D)) := by
          unfold delete_snippet
          rw [if_neg (not_not_intro (hsnip2.trans hskS)), deletev_eraseKeys hmemv2]
        rw [hds]
        dsimp only
        have hstep := ih (sk :: D) (List.Nodup.of_cons hnd)
          (by
            intro d hd
            rcases List.mem_cons.mp hd with rfl | hd2
            · exact hskS
            · exact hD d hd2)
          (by
            intro x hx
            refine ⟨(hr x (List.mem_cons_of_mem _ hx)).1, ?_⟩
            intro hx2
            rcases List.mem_cons.mp hx2 with rfl | hx3
            · exact (List.nodup_cons.mp hnd).1 hx
            · exact (hr x (List.mem_cons_of_mem _ hx)).2 hx3)
        rw [hstep, List.filter_cons_of_pos (by simpa using hc)]
        apply congrArg
        apply eraseKeys_congr
        intro x
        simp only [List.mem_append, List.mem_cons]
        constructor
        · rintro (⟨rfl | h⟩ | h)
          · exact Or.inr (Or.inl rfl)
          · exact Or.inl h
          · exact Or.inr (Or.inr h)
        · rintro (h | ⟨rfl | h⟩)
          · exact Or.inl (Or.inr h)
          · exact Or.inl (Or.inl rfl)
          · exact Or.inr h
      · rw [if_neg hc]
        have hstep := ih D (List.Nodup.of_cons hnd) hD
          (fun x hx => hr x (List.mem_cons_of_mem _ hx))
        rw [hstep, List.filter_cons_of_neg (by simpa using hc)]

/-- C4: under the domain state invariants (snippet/metadata classifications
exclusive; edges out of snippet vertices point to metadata vertices),
`delete_metadata` on an existing metadata key succeeds and deletes exactly
the linked snippets whose total outgoing edge count is 1, keeps every other
vertex — in particular every snippet with two or more outgoing edges and
every other metadata vertex, children included — and removes the metadata
vertex itself together with all its incident edges. -/
theorem C4_delete_metadata_cascade (s : GraphState) (m : Metadata)
    (Hm : is_metadata s (format_metdata m) = true)
    (Hexcl : ∀ k ∈ vertexKeys s, ¬ (is_snippet s k = true ∧ is_metadata s k = true))
    (Hsnip : ∀ e ∈ s.edges, is_snippet s e.1 = true → is_metadata s e.2.1 = true) :
    ∃ s2, delete_metadata s m = (.ok (), s2) ∧
      (∀ k, memv s2 k = true ↔
        (memv s k = true ∧ k ≠ format_metdata m ∧
         ¬ (is_snippet s k = true ∧ meme s k (format_metdata m) = true ∧
            (successorsOf s k).length = 1))) ∧
      (∀ e ∈ s2.edges, e.1 ≠ format_metdata m ∧ e.2.1 ≠ format_metdata m) ∧
      (∀ k, is_metadata s k = true → k ≠ format_metdata m →
        memv s2 k = true) := by
  have hpred : digraph_predecessors s (format_metdata m)
      = .ok (predecessorsOf s (format_metdata m)) := by
    unfold digraph_predecessors
    rw [if_pos (is_metadata_memv Hm)]
  have hLdef : get_snippets_from_metadata_set s m
      = pySet (filter_snippets_from_vertices s
          (predecessorsOf s (format_metdata m))) := by
    unfold get_snippets_from_metadata_set
    rw [hpred]
  have hLnodup : (get_snippets_from_metadata_set s m).Nodup := by
    rw [hLdef]
    exact List.nodup_dedup _
  have hLmem : ∀ x, x ∈ get_snippets_from_metadata_set s m ↔
      (is_snippet s x = true ∧ ∃ l, (x, format_metdata m, l) ∈ s.edges) := by
    intro x
    rw [hLdef]
    unfold pySet
    rw [List.mem_dedup, mem_filter_snippets_from_vertices, mem_predecessorsOf]
    tauto
  have hloop := delete_snippets_loop_spec s (format_metdata m) Hexcl Hsnip Hm
    (get_snippets_from_metadata_set s m) [] hLnodup (by simp)
    (fun x hx => ⟨((hLmem x).mp hx).1, by simp⟩)
  rw [eraseKeys_nil, List.nil_append] at hloop
  have hL2mem : ∀ k, k ∈ (get_snippets_from_metadata_set s m).filter
      (fun x => only_metadata_of_snippet s (format_metdata m) x) ↔
      (is_snippet s k = true ∧ meme s k (format_metdata m) = true ∧
       (successorsOf s k).length = 1) := by
    intro k
    rw [List.mem_filter]
    constructor
    · rintro ⟨hkL, hc⟩
      obtain ⟨-, h2, h3, h4⟩ := only_metadata_of_snippet_iff.mp hc
      exact ⟨h2, h4, h3⟩
    · rintro ⟨h1, h2, h3⟩
      exact ⟨(hLmem k).mpr ⟨h1, meme_iff.mp h2⟩,
        only_metadata_of_snippet_iff.mpr ⟨Hm, h1, h3, h2⟩⟩
  have hmL2 : format_metdata m ∉ (get_snippets_from_metadata_set s m).filter
      (fun x => only_metadata_of_snippet s (format_metdata m) x) := by
    intro hm2
    have := ((hL2mem _).mp hm2).1
    exact Hexcl (format_metdata m) (memv_iff_mem.mp (is_metadata_memv Hm))
      ⟨this, Hm⟩
  have hmemv2 : memv (eraseKeys s ((get_snippets_from_metadata_set s m).filter
      (fun x => only_metadata_of_snippet s (format_metdata m) x)))
      (format_metdata m) = true := by
    rw [memv_eraseKeys_not_mem hmL2]
    exact is_metadata_memv Hm
  refine ⟨eraseKeys s (format_metdata m ::
      (get_snippets_from_metadata_set s m).filter
        (fun x => only_metadata_of_snippet s (format_metdata m) x)),
    ?_, ?_, ?_, ?_⟩
  · unfold delete_metadata
    rw [if_neg (not_not_intro Hm)]
    dsimp only
    rw [hloop]
    dsimp only
    exact deletev_eraseKeys hmemv2
  · intro k
    rw [memv_eraseKeys]
    constructor
    · rintro ⟨h1, h2⟩
      simp only [List.mem_cons] at h2
      push_neg at h2
      refine ⟨h1, h2.1, ?_⟩
      intro hbad
      exact h2.2 ((hL2mem k).mpr ⟨hbad.1, hbad.2.1, hbad.2.2⟩)
    · rintro ⟨h1, h2, h3⟩
      refine ⟨h1, ?_⟩
      simp only [List.mem_cons]
      push_neg
      refine ⟨h2, ?_⟩
      intro hk2
      obtain ⟨hb1, hb2, hb3⟩ := (hL2mem k).mp hk2
      exact h3 ⟨hb1, hb2, hb3⟩
  · intro e he
    simp only [eraseKeys, List.mem_filter, Bool.and_eq_true, decide_eq_true_eq,
      List.mem_cons] at he
    obtain ⟨-, he1, he2⟩ := he
    push_neg at he1 he2
    exact ⟨he1.1, he2.1⟩
  · intro k hk hne
    rw [memv_eraseKeys]
    refine ⟨is_metadata_memv hk, ?_⟩
    simp only [List.mem_cons]
    push_neg
    refine ⟨hne, ?_⟩
    intro hk2
    have := ((hL2mem k).mp hk2).1
    exact Hexcl k (memv_iff_mem.mp (is_metadata_memv hk)) ⟨this, hk⟩

/-- C4 witness: the cascade characterization at the spec example — `a.py`
linked only to `x-concept`, `b.py` linked to `x-concept` and `y-concept`,
deleting `x-concept`. -/
theorem C4_witness :
    (is_metadata ⟨[("x-concept", [("name", "x"), ("category", "concept")]),
        ("y-concept", [("name", "y"), ("category", "concept")]),
        ("a.py", [("name", "a.py"), ("content", "ca"), ("extension", "py"),
          ("created_at", "t")]),
        ("b.py", [("name", "b.py"), ("content", "cb"), ("extension", "py"),
          ("created_at", "t")])],
       [("a.py", "x-concept", "has_metadata"),
        ("b.py", "x-concept", "has_metadata"),
        ("b.py", "y-concept", "has_metadata")]⟩
      (format_metdata ⟨"x", Category.concept⟩) = true) ∧
    ∃ s2, delete_metadata ⟨[("x-concept", [("name", "x"), ("category", "concept")]),
        ("y-concept", [("name", "y"), ("category", "concept")]),
        ("a.py", [("name", "a.py"), ("content", "ca"), ("extension", "py"),
          ("created_at", "t")]),
        ("b.py", [("name", "b.py"), ("content", "cb"), ("extension", "py"),
          ("created_at", "t")])],
       [("a.py", "x-concept", "has_metadata"),
        ("b.py", "x-concept", "has_metadata"),
        ("b.py", "y-concept", "has_metadata")]⟩
      ⟨"x", Category.concept⟩ = (.ok (), s2) ∧
      (∀ k, memv s2 k = true ↔
        (memv ⟨[("x-concept", [("name", "x"), ("category", "concept")]),
            ("y-concept", [("name", "y"), ("category", "concept")]),
            ("a.py", [("name", "a.py"), ("content", "ca"), ("extension", "py"),
              ("created_at", "t")]),
            ("b.py", [("name", "b.py"), ("content", "cb"), ("extension", "py"),
              ("created_at", "t")])],
           [("a.py", "x-concept", "has_metadata"),
            ("b.py", "x-concept", "has_metadata"),
            ("b.py", "y-concept", "has_metadata")]⟩ k = true ∧
         k ≠ format_metdata ⟨"x", Category.concept⟩ ∧
         ¬ (is_snippet ⟨[("x-concept", [("name", "x"), ("category", "concept")]),
              ("y-concept", [("name", "y"), ("category", "concept")]),
              ("a.py", [("name", "a.py"), ("content", "ca"), ("extension", "py"),
                ("created_at", "t")]),
              ("b.py", [("name", "b.py"), ("content", "cb"), ("extension", "py"),
                ("created_at", "t")])],
             [("a.py", "x-concept", "has_metadata"),
              ("b.py", "x-concept", "has_metadata"),
              ("b.py", "y-concept", "has_metadata")]⟩ k = true ∧
            meme ⟨[("x-concept", [("name", "x"), ("category", "concept")]),
              ("y-concept", [("name", "y"), ("category", "concept")]),
              ("a.py", [("name", "a.py"), ("content", "ca"), ("extension", "py"),
                ("created_at", "t")]),
              ("b.py", [("name", "b.py"), ("content", "cb"), ("extension", "py"),
                ("created_at", "t")])],
             [("a.py", "x-concept", "has_metadata"),
              ("b.py", "x-concept", "has_metadata"),
              ("b.py", "y-concept", "has_metadata")]⟩ k
              (format_metdata ⟨"x", Category.concept⟩) = true ∧
            (successorsOf ⟨[("x-concept", [("name", "x"), ("category", "concept")]),
              ("y-concept", [("name", "y"), ("category", "concept")]),
              ("a.py", [("name", "a.py"), ("content", "ca"), ("extension", "py"),
                ("created_at", "t")]),
              ("b.py", [("name", "b.py"), ("content", "cb"), ("extension", "py"),
                ("created_at", "t")])],
             [("a.py", "x-concept", "has_metadata"),
              ("b.py", "x-concept", "has_metadata"),
              ("b.py", "y-concept", "has_metadata")]⟩ k).length = 1))) :=
  ⟨by decide, by
    obtain ⟨s2, hrun, hmem, -, -⟩ :=
      C4_delete_metadata_cascade
        ⟨[("x-concept", [("name", "x"), ("category", "concept")]),
          ("y-concept", [("name", "y"), ("category", "concept")]),
          ("a.py", [("name", "a.py"), ("content", "ca"), ("extension", "py"),
            ("created_at", "t")]),
          ("b.py", [("name", "b.py"), ("content", "cb"), ("extension", "py"),
            ("created_at", "t")])],
         [("a.py", "x-concept", "has_metadata"),
          ("b.py", "x-concept", "has_metadata"),
          ("b.py", "y-concept", "has_metadata")]⟩
        ⟨"x", Category.concept⟩ (by decide) (by decide) (by decide)
    exact ⟨s2, hrun, hmem⟩⟩
